import Mathlib

/-!
Verification of the GLTF repair core of the HigurashiDaybreakModelConversion
repository.

The embedding covers:
  * `Daybreak`  — `pythonScripts/fix_daybreak_gltf.py` (class DaybreakGLTFFixer)
  * `BoneOrder` — `pythonScripts/oldScripts/fix_gltf_bone_order.py` (class GLTFBoneFixer)
  * `AnimTiming` — `pythonScripts/oldScripts/fix_gltf_animation_timing.py`
    (class GLTFAnimationFixer, `write_accessor_data`)

Numeric model: Python floats are modelled exactly, as rationals extended with
NaN and the two signed infinities (type `F`).  IEEE rounding is idealized
away; the repair logic only compares magnitudes against the thresholds 1e100
and 10000 and computes `i * (1.0 / 30.0)`, which the spec itself reads as the
exact value `i / 30`.

Buffer model: the binary buffer is a length together with a map from
(component-type code, byte offset) to the numeric value that
`struct.unpack_from` would decode at that offset.  `struct.pack_into` at an
offset updates exactly that entry and never changes the length.  All reads
and writes performed by the scripts use disjoint byte ranges per accessor, so
byte-level aliasing between offsets is not observable by the repair logic.
-/

/-- A Python float: NaN, a signed infinity (`inf true` is +inf), or a finite
value modelled as an exact rational. -/
inductive F where
  | nan : F
  | inf : Bool → F
  | fin : ℚ → F
deriving DecidableEq, Repr

/-- Python `<` on floats: any comparison with NaN is false. -/
def flt : F → F → Bool
  | F.nan, _ => false
  | _, F.nan => false
  | F.inf s, F.inf t => !s && t
  | F.inf s, F.fin _ => !s
  | F.fin _, F.inf t => t
  | F.fin a, F.fin b => decide (a < b)

/-- Python `>` on floats. -/
def fgt (a b : F) : Bool := flt b a

/-- Python `abs` on floats. -/
def fabs : F → F
  | F.nan => F.nan
  | F.inf _ => F.inf true
  | F.fin q => F.fin |q|

/-- Python `math.isnan`. -/
def isnan : F → Bool
  | F.nan => true
  | _ => false

/-- Python `math.isinf`. -/
def isinf : F → Bool
  | F.inf _ => true
  | _ => false

/-- Auxiliary fold of Python `min` over the tail of a list. -/
def pyminAux (m : F) : List F → F
  | [] => m
  | x :: xs => pyminAux (if flt x m then x else m) xs

/-- Python `min` over a list of floats (`none` on the empty list, where
Python raises).  Keeps the current candidate unless a strictly smaller
element appears, exactly as CPython's fold does. -/
def pymin : List F → Option F
  | [] => none
  | x :: xs => some (pyminAux x xs)

/-- Auxiliary fold of Python `max` over the tail of a list. -/
def pymaxAux (m : F) : List F → F
  | [] => m
  | x :: xs => pymaxAux (if flt m x then x else m) xs

/-- Python `max` over a list of floats. -/
def pymax : List F → Option F
  | [] => none
  | x :: xs => some (pymaxAux x xs)

/-- The timing plausibility threshold 1e100 of fix_daybreak_gltf.py
(an integer, so written as a cast of the natural number 10^100). -/
def bigTiming : ℚ := ((10 ^ 100 : ℕ) : ℚ)

/-- `abs(t) > 1e100 or math.isinf(t) or math.isnan(t)` — the per-sample
corruption test of `fix_animation_timing`. -/
def sampleCorrupt (t : F) : Bool :=
  fgt (fabs t) (F.fin bigTiming) || isinf t || isnan t

/-- The corruption predicate on a timing accessor's stored `min`/`max`
(from `fix_animation_timing`, lines 100–108). -/
def timingCorrupt (mn mx : F) : Bool :=
  fgt (fabs mn) (F.fin bigTiming) || fgt (fabs mx) (F.fin bigTiming) ||
  isinf mn || isinf mx || isnan mn || isnan mx || fgt mn mx

/-- `abs(v) > 10000 or math.isinf(v) or math.isnan(v)` — the spatial
plausibility test of `fix_extreme_coordinates`. -/
def extremeVal (v : F) : Bool :=
  fgt (fabs v) (F.fin 10000) || isinf v || isnan v

/-- The binary buffer: a byte length plus, for every component-type code and
byte offset, the value `struct.unpack_from` would decode there. -/
structure Buf where
  size : ℕ
  data : ℕ → ℕ → F

/-- `struct.unpack_from(fmt, buf, off)` guarded by the scripts' bound checks:
yields a value only when `off + csize ≤ size`. -/
def readAt (b : Buf) (ct off csize : ℕ) : Option F :=
  if off + csize ≤ b.size then some (b.data ct off) else none

/-- `struct.pack_into(fmt, buf, off, v)`: updates the decoded value at that
offset and never changes the buffer length. -/
def bufWrite (b : Buf) (ct off : ℕ) (v : F) : Buf :=
  { size := b.size
    data := fun c o => if c = ct ∧ o = off then v else b.data c o }

namespace Daybreak

/-- The component-type code of 32-bit floats in the JSON document. -/
def FLOAT : ℕ := 5126

/-- An animation sampler: only its `input` accessor reference matters to the
fixer. -/
structure DSampler where
  input : Option ℕ
deriving DecidableEq, Repr

/-- An animation: a list of samplers. -/
structure DAnim where
  samplers : List DSampler
deriving DecidableEq, Repr

/-- An accessor as read by DaybreakGLTFFixer: optional fields are `Option`s,
absent numeric fields default to 0 at the use sites exactly as the Python
`dict.get` calls do. -/
structure DAcc where
  bufferView : Option ℕ
  byteOffset : ℕ
  componentType : ℕ
  type : String
  count : ℕ
  min : Option (List F)
  max : Option (List F)
deriving DecidableEq, Repr

/-- A buffer view: the fixer reads its `byteOffset` (default 0) and its
`buffer` reference (validation only). -/
structure DBV where
  byteOffset : ℕ
  buffer : Option ℕ
deriving DecidableEq, Repr

/-- The loaded document.  `hasScenes`/`hasNodes` model presence of the
top-level keys checked by `validate_structure`; `buffersLen` is the length
of the `buffers` array (only its length is consulted). -/
structure DDoc where
  animations : List DAnim
  accessors : List DAcc
  bufferViews : List DBV
  buffersLen : ℕ
  hasScenes : Bool
  hasNodes : Bool
deriving Repr

/-- A recorded entry of `fixes_applied` (structurally; the Python stores
formatted strings carrying the same data). -/
inductive FixEntry where
  | regenTiming (anim samp count : ℕ)
  | fixedTiming (anim samp : ℕ)
  | fixedBounds (acc : ℕ)
deriving DecidableEq, Repr

/-- A recorded entry of `issues_found`. -/
inductive IssueEntry where
  | extremeAccessor (acc : ℕ)
  | missingField (name : String)
  | invalidBufferView (acc bv : ℕ)
  | invalidBuffer (bv buf : ℕ)
deriving DecidableEq, Repr

/-- Mutable state threaded through `fix_animation_timing`: the (in-place
mutated) accessors array, the binary buffer, and the accumulated report. -/
structure TState where
  accessors : List DAcc
  buf : Buf
  fixes : List FixEntry
  fixedCount : ℕ

/-- `accessor.get('min', [0])[0]`: absent key defaults to `[0]`; a present
but empty list raises IndexError (modelled as `Except.error`). -/
def first0 : Option (List F) → Except String F
  | none => .ok (F.fin 0)
  | some [] => .error "IndexError: list index out of range"
  | some (x :: _) => .ok x

/-- The float-array read loop of `fix_animation_timing` (lines 119–124):
reads `count` floats at stride 4, silently skipping offsets past the end of
the buffer. -/
def readTimes (b : Buf) (byteOff count : ℕ) : List F :=
  (List.range count).filterMap (fun i =>
    if byteOff + i * 4 + 4 ≤ b.size then some (b.data FLOAT (byteOff + i * 4)) else none)

/-- The write-back loop of `fix_animation_timing` (lines 139–141):
`struct.pack_into` raises (modelled as `Except.error`) if a write would pass
the end of the buffer. -/
def writeTimes (b : Buf) (byteOff : ℕ) : List F → ℕ → Except String Buf
  | [], _ => .ok b
  | v :: vs, i =>
    if byteOff + i * 4 + 4 ≤ b.size then
      writeTimes (bufWrite b FLOAT (byteOff + i * 4) v) byteOff vs (i + 1)
    else .error "struct.error: pack_into requires a buffer of sufficient size"

/-- The synthetic 30-FPS timestamps `[i * (1.0/30.0) for i in range(count)]`. -/
def synthTimes (count : ℕ) : List F :=
  (List.range count).map (fun i : ℕ => F.fin ((i : ℚ) / 30))

/-- The body of the per-sampler loop of `fix_animation_timing` (lines
89–160), acting on the running state.  An out-of-range `input` accessor
index raises IndexError (uncaught in the script). -/
def samplerStep (bvs : List DBV) (ai si : ℕ) (st : TState) (s : DSampler) :
    Except String TState :=
  match s.input with
  | none => .ok st
  | some idx =>
    match st.accessors.get? idx with
    | none => .error "IndexError: accessors index out of range"
    | some acc =>
      match first0 acc.min with
      | .error e => .error e
      | .ok mn =>
        match first0 acc.max with
        | .error e => .error e
        | .ok mx =>
          if timingCorrupt mn mx then
            match acc.bufferView with
            | some bvi =>
              match bvs.get? bvi with
              | some bv =>
                match readTimes st.buf (bv.byteOffset + acc.byteOffset) acc.count with
                | [] => .ok st
                | t :: ts =>
                  if (t :: ts).any sampleCorrupt then
                    match writeTimes st.buf (bv.byteOffset + acc.byteOffset)
                        (synthTimes acc.count) 0 with
                    | .error e => .error e
                    | .ok buf' =>
                      let amin := (pymin (synthTimes acc.count)).getD (F.fin 0)
                      let amax := (pymax (synthTimes acc.count)).getD (F.fin 0)
                      let acc' := { acc with min := some [amin], max := some [amax] }
                      .ok { accessors := st.accessors.set idx acc', buf := buf',
                            fixes := st.fixes ++ [.regenTiming ai si acc.count, .fixedTiming ai si],
                            fixedCount := st.fixedCount + 1 }
                  else
                    let amin := pyminAux t ts
                    let amax := pymaxAux t ts
                    let acc' := { acc with min := some [amin], max := some [amax] }
                    .ok { accessors := st.accessors.set idx acc', buf := st.buf,
                          fixes := st.fixes ++ [.fixedTiming ai si],
                          fixedCount := st.fixedCount + 1 }
              | none => .ok st
            | none => .ok st
          else .ok st

/-- `DaybreakGLTFFixer.fix_animation_timing`: folds `samplerStep` over every
sampler of every animation, starting from the loaded accessors and buffer. -/
def fix_animation_timing (d : DDoc) (b : Buf) : Except String TState :=
  d.animations.enum.foldlM
    (fun st p =>
      p.2.samplers.enum.foldlM (fun st' q => samplerStep d.bufferViews p.1 q.1 st' q.2) st)
    { accessors := d.accessors, buf := b, fixes := [], fixedCount := 0 }

/-- `{'SCALAR': 1, 'VEC2': 2, 'VEC3': 3, 'VEC4': 4, 'MAT4': 16}.get(t, 1)`. -/
def type_sizes : String → ℕ
  | "SCALAR" => 1
  | "VEC2" => 2
  | "VEC3" => 3
  | "VEC4" => 4
  | "MAT4" => 16
  | _ => 1

/-- The per-component read loop of `fix_extreme_coordinates` (lines
209–217): component `comp` of element `i` sits at
`byteOff + (i*ncomp + comp)*4`; offsets past the buffer end are skipped. -/
def spatialCols (b : Buf) (byteOff count ncomp : ℕ) : List (List F) :=
  (List.range ncomp).map (fun comp =>
    (List.range count).filterMap (fun i =>
      readAt b FLOAT (byteOff + (i * ncomp + comp) * 4) 4))

/-- `[min(vals) if vals else 0.0 for vals in all_values]`. -/
def colMins (cols : List (List F)) : List F :=
  cols.map (fun vs => (pymin vs).getD (F.fin 0))

/-- `[max(vals) if vals else 0.0 for vals in all_values]`. -/
def colMaxs (cols : List (List F)) : List F :=
  cols.map (fun vs => (pymax vs).getD (F.fin 0))

/-- The body of the per-accessor loop of `fix_extreme_coordinates` (lines
174–241): returns the (possibly updated) accessor plus the recorded fix or
issue.  It never touches the binary buffer. -/
def extremeStep (bvs : List DBV) (b : Buf) (i : ℕ) (a : DAcc) :
    DAcc × Option FixEntry × Option IssueEntry :=
  if a.componentType ≠ FLOAT then (a, none, none)
  else
    let mns := a.min.getD []
    let mxs := a.max.getD []
    if mns.isEmpty || mxs.isEmpty then (a, none, none)
    else if (mns ++ mxs).any extremeVal then
      match a.bufferView with
      | some bvi =>
        match bvs.get? bvi with
        | some bv =>
          let byteOff := bv.byteOffset + a.byteOffset
          let ncomp := type_sizes a.type
          let cols := spatialCols b byteOff a.count ncomp
          let nmin := colMins cols
          let nmax := colMaxs cols
          if (nmin ++ nmax).any extremeVal then
            (a, none, some (.extremeAccessor i))
          else
            ({ a with min := some nmin, max := some nmax }, some (.fixedBounds i), none)
        | none => (a, none, none)
      | none => (a, none, none)
    else (a, none, none)

/-- State accumulated by `fix_extreme_coordinates`; `buf` is the session's
binary buffer, which this pass reads but never writes. -/
structure EState where
  accessors : List DAcc
  buf : Buf
  fixes : List FixEntry
  issues : List IssueEntry
  extremeCount : ℕ

/-- One fold step of `fix_extreme_coordinates`: process one (index,
accessor) pair and accumulate. -/
def extremeFold (bvs : List DBV) (st : EState) (p : ℕ × DAcc) : EState :=
  let r := extremeStep bvs st.buf p.1 p.2
  { accessors := st.accessors ++ [r.1]
    buf := st.buf
    fixes := st.fixes ++ r.2.1.toList
    issues := st.issues ++ r.2.2.toList
    extremeCount := st.extremeCount + (if r.2.1.isSome then 1 else 0) }

/-- `DaybreakGLTFFixer.fix_extreme_coordinates`: folds `extremeStep` over
the accessors array.  The binary buffer is only read, never written. -/
def fix_extreme_coordinates (bvs : List DBV) (b : Buf) (accs : List DAcc) : EState :=
  accs.enum.foldl (extremeFold bvs)
    { accessors := [], buf := b, fixes := [], issues := [], extremeCount := 0 }

/-- `DaybreakGLTFFixer.validate_structure`: records missing required fields
and dangling accessor→bufferView / bufferView→buffer references. -/
def validate_structure (d : DDoc) (accs : List DAcc) : List IssueEntry :=
  (if d.hasScenes then [] else [IssueEntry.missingField "scenes"]) ++
  (if d.hasNodes then [] else [IssueEntry.missingField "nodes"]) ++
  accs.enum.filterMap (fun p =>
    match p.2.bufferView with
    | some bv => if d.bufferViews.length ≤ bv then some (.invalidBufferView p.1 bv) else none
    | none => none) ++
  d.bufferViews.enum.filterMap (fun p =>
    match p.2.buffer with
    | some bi => if d.buffersLen ≤ bi then some (.invalidBuffer p.1 bi) else none
    | none => none)

/-- The final report of a repair session: the repaired accessors and buffer
plus `fixes_applied` and `issues_found`. -/
structure FixReport where
  accessors : List DAcc
  buf : Buf
  fixes : List FixEntry
  issues : List IssueEntry
  success : Bool

/-- `DaybreakGLTFFixer.fix_all` (minus file I/O): runs the three passes in
order and reports; `success` is `issues_found == []`. -/
def fix_all (d : DDoc) (b : Buf) : Except String FixReport := do
  let st ← fix_animation_timing d b
  let e := fix_extreme_coordinates d.bufferViews st.buf st.accessors
  let is3 := validate_structure d e.accessors
  .ok { accessors := e.accessors, buf := e.buf,
        fixes := st.fixes ++ e.fixes, issues := e.issues ++ is3,
        success := (e.issues ++ is3).isEmpty }

/-- The fields of an accessor that `fix_animation_timing` reads but never
writes (it only ever rewrites `min`/`max`). -/
def accShape (a : DAcc) : Option ℕ × ℕ × ℕ := (a.bufferView, a.byteOffset, a.count)

/-- Structural conditions under which the whole Daybreak repair session is
guaranteed not to abort: every animation sampler's `input` accessor index is
in range, no accessor carries a present-but-empty `min`/`max` list, and for
every accessor with a resolvable buffer view the accessor's full scalar
range fits inside the binary buffer. -/
def wellFormedDay (d : DDoc) (b : Buf) : Bool :=
  d.animations.all (fun an => an.samplers.all (fun s =>
    match s.input with
    | none => true
    | some idx => decide (idx < d.accessors.length))) &&
  d.accessors.all (fun a =>
    decide (a.min ≠ some ([] : List F)) && decide (a.max ≠ some ([] : List F))) &&
  d.accessors.all (fun a =>
    match a.bufferView with
    | some bvi =>
      match d.bufferViews.get? bvi with
      | some bv => decide (bv.byteOffset + a.byteOffset + 4 * a.count ≤ b.size)
      | none => true
    | none => true)

/-- The state invariant `fix_animation_timing` maintains across sampler
steps: accessor shapes (bufferView, byteOffset, count) unchanged — the loop
only rewrites `min`/`max` —, no present-but-empty `min`/`max` list ever
introduced, and the binary buffer never resized. -/
def timingInv (d : DDoc) (b : Buf) (st : TState) : Prop :=
  st.accessors.map accShape = d.accessors.map accShape ∧
  (∀ a ∈ st.accessors, a.min ≠ some [] ∧ a.max ≠ some []) ∧
  st.buf.size = b.size

end Daybreak

namespace BoneOrder

/-- A node of the scene graph: its (possibly empty) `children` list of node
indices plus an opaque payload standing for every other field of the JSON
node object (name, transform, …), which the reorder pass moves around but
never inspects. -/
structure GNode where
  children : List ℕ
  payload : ℕ
deriving DecidableEq, Repr

/-- A scene: its list of root-node indices. -/
structure BScene where
  nodes : List ℕ
deriving DecidableEq, Repr

/-- A skin: its joint list and optional skeleton-root reference. -/
structure BSkin where
  joints : List ℕ
  skeleton : Option ℕ
deriving DecidableEq, Repr

/-- An animation channel: its optional target-node reference. -/
structure BChannel where
  targetNode : Option ℕ
deriving DecidableEq, Repr

/-- An animation: a list of channels. -/
structure BAnim where
  channels : List BChannel
deriving DecidableEq, Repr

/-- The document as seen by GLTFBoneFixer. -/
structure BDoc where
  nodes : List GNode
  scenes : List BScene
  skins : List BSkin
  animations : List BAnim
deriving DecidableEq, Repr

/-- `node_children.get(i, [])`: the children of node `i`, empty for an
out-of-range index (the Python dict has no such key). -/
def childrenOf (nodes : List GNode) (i : ℕ) : List ℕ :=
  ((nodes.get? i).map GNode.children).getD []

/-- `i in node_parent`: some node lists `i` among its children. -/
def node_has_parent (nodes : List GNode) (c : ℕ) : Bool :=
  nodes.any (fun nd => nd.children.contains c)

/-- `root_nodes`: indices that are nobody's child. -/
def root_nodes (nodes : List GNode) : List ℕ :=
  (List.range nodes.length).filter (fun i => ¬ node_has_parent nodes i)

/-- The recursive `dfs` of `topological_sort_nodes` / `topological_sort_joints`.
In the source, `visited` (a set) and the output list always hold exactly the
same elements — they are appended to together — so one list serves as both.
The `fuel` argument bounds the recursion depth; every caller passes a fuel
larger than the number of distinct indices the traversal can ever add plus
one, which makes the fueled function agree with Python's unbounded
recursion (`dfsGo_fuel_stable` below makes this precise). -/
def dfsGo (g : ℕ → List ℕ) : ℕ → ℕ → List ℕ → List ℕ
  | 0, _, ord => ord
  | fuel + 1, i, ord =>
    if i ∈ ord then ord
    else (g i).foldl (fun o c => dfsGo g fuel c o) (ord ++ [i])

/-- `for root_idx in root_nodes: dfs(root_idx)`. -/
def dfsForest (g : ℕ → List ℕ) (fuel : ℕ) (roots : List ℕ) : List ℕ :=
  roots.foldl (fun o r => dfsGo g fuel r o) []

/-- Total length of all children lists: part of the fuel bound. -/
def totalChildrenLen (nodes : List GNode) : ℕ :=
  (nodes.map (fun nd => nd.children.length)).sum

/-- A recursion-depth bound for the node traversal: greater than the number
of distinct indices (in-range or not) that can ever be visited. -/
def defaultFuel (nodes : List GNode) : ℕ :=
  nodes.length + 2 + totalChildrenLen nodes

/-- The node indices visited by the root DFS of `topological_sort_nodes`. -/
def visitedNodesF (fuel : ℕ) (nodes : List GNode) : List ℕ :=
  dfsForest (childrenOf nodes) fuel (root_nodes nodes)

/-- The nodes `topological_sort_nodes` appends at the end with a
"not connected to any root" warning (its only failure record). -/
def unvisitedNodesF (fuel : ℕ) (nodes : List GNode) : List ℕ :=
  (List.range nodes.length).filter (fun i => i ∉ visitedNodesF fuel nodes)

/-- `topological_sort_nodes`: DFS preorder from all roots, then the
unvisited indices in their original relative order. -/
def topological_sort_nodesF (fuel : ℕ) (nodes : List GNode) : List ℕ :=
  visitedNodesF fuel nodes ++ unvisitedNodesF fuel nodes

/-- The `index_mapping` dict `{old: new}` built from the sorted index list,
as a function.  Python raises KeyError on an index outside the list; the
embedding then yields the junk value `sorted.length`, and every theorem
below restricts to documents whose references stay in range, where the two
agree. -/
def index_mapping (sorted : List ℕ) (old : ℕ) : ℕ :=
  sorted.indexOf old

/-- `nodes[i]` with a junk default (Python raises IndexError; theorems
restrict to in-range indices). -/
def nodeAt (nodes : List GNode) (i : ℕ) : GNode :=
  nodes.getD i ⟨[], 0⟩

/-- The `needs_reorder` scan of `fix_node_hierarchy` (lines 241–250): some
node has a child with a numerically lower index. -/
def needs_reorder_nodes (nodes : List GNode) : Bool :=
  nodes.enum.any (fun p => p.2.children.any (fun c => c < p.1))

/-- The in-place rewrite applied to each node dict: children remapped
through the index mapping, all other fields (the payload) untouched. -/
def remapNode (m : ℕ → ℕ) (nd : GNode) : GNode :=
  { children := nd.children.map m, payload := nd.payload }

/-- `GLTFBoneFixer.fix_node_hierarchy` at an explicit DFS fuel: if any child
index precedes its parent, topologically sort the nodes and rewrite every
cross-reference (children, scene roots, skin joints and skeletons, animation
channel targets) through the single old→new index mapping. -/
def fix_node_hierarchyF (fuel : ℕ) (d : BDoc) : BDoc :=
  if needs_reorder_nodes d.nodes then
    let sorted := topological_sort_nodesF fuel d.nodes
    let m := index_mapping sorted
    { nodes := sorted.map (fun old => remapNode m (nodeAt d.nodes old))
      scenes := d.scenes.map (fun sc => { nodes := sc.nodes.map m })
      skins := d.skins.map (fun sk =>
        { joints := sk.joints.map m, skeleton := sk.skeleton.map m })
      animations := d.animations.map (fun an =>
        { channels := an.channels.map (fun ch => { targetNode := ch.targetNode.map m }) }) }
  else d

/-- `fix_node_hierarchy` at its standard fuel. -/
def fix_node_hierarchy (d : BDoc) : BDoc :=
  fix_node_hierarchyF (defaultFuel d.nodes) d

/-- The per-skin `needs_reorder` scan of `fix_bone_order` (lines 204–215):
some joint occurrence has a child joint whose first occurrence in the list
comes earlier. -/
def skin_needs_reorder (nodes : List GNode) (joints : List ℕ) : Bool :=
  joints.enum.any (fun p =>
    (childrenOf nodes p.2).any (fun c => joints.contains c && joints.indexOf c < p.1))

/-- The joint-subgraph children function of `topological_sort_joints`:
children of `j` that are themselves joints, empty off the joint set. -/
def jointChildren (nodes : List GNode) (joints : List ℕ) (j : ℕ) : List ℕ :=
  if joints.contains j then (childrenOf nodes j).filter (fun c => joints.contains c) else []

/-- `j in joint_parent`: some joint lists `j` among its joint-children. -/
def joint_has_parent (nodes : List GNode) (joints : List ℕ) (c : ℕ) : Bool :=
  joints.any (fun p => (jointChildren nodes joints p).contains c)

/-- `root_joints`: occurrences in the joint list with no parent inside the
joint set (duplicates are kept, as in the source). -/
def root_joints (nodes : List GNode) (joints : List ℕ) : List ℕ :=
  joints.filter (fun j => ¬ joint_has_parent nodes joints j)

/-- A recursion-depth bound for the joint traversal: the DFS only ever
visits members of the joint list. -/
def jointFuel (joints : List ℕ) : ℕ :=
  joints.length + 2

/-- The joint indices visited by the root DFS of `topological_sort_joints`. -/
def visitedJoints (nodes : List GNode) (joints : List ℕ) : List ℕ :=
  dfsForest (jointChildren nodes joints) (jointFuel joints) (root_joints nodes joints)

/-- `GLTFBoneFixer.topological_sort_joints`: DFS preorder over the joint
subgraph from all root joints, then every unvisited occurrence of the input
list (the append loop does not deduplicate). -/
def topological_sort_joints (joints : List ℕ) (nodes : List GNode) : List ℕ :=
  let vis := visitedJoints nodes joints
  vis ++ joints.filter (fun j => j ∉ vis)

/-- The per-skin body of `fix_bone_order` (lines 195–230): skip empty joint
lists, reorder when some joint precedes its parent joint. -/
def processSkin (nodes : List GNode) (sk : BSkin) : BSkin :=
  if sk.joints.isEmpty then sk
  else if skin_needs_reorder nodes sk.joints then
    { sk with joints := topological_sort_joints sk.joints nodes }
  else sk

/-- `GLTFBoneFixer.fix_bone_order`: independently for each skin, reorder its
joint list when some joint precedes its parent joint. -/
def fix_bone_order (d : BDoc) : BDoc :=
  { d with skins := d.skins.map (processSkin d.nodes) }

/-- All parent→child edges of a node list that violate parent index < child
index. -/
def badEdges (nodes : List GNode) : List (ℕ × ℕ) :=
  nodes.enum.flatMap (fun p => (p.2.children.filter (fun c => ¬ p.1 < c)).map (fun c => (p.1, c)))

/-- Every child reference of every node is in range of the node list (the
structural invariant of the document format; an out-of-range child makes the
Python pass raise IndexError). -/
def childrenInRange (nodes : List GNode) : Bool :=
  nodes.all (fun nd => nd.children.all (fun c => decide (c < nodes.length)))

/-- Every node has at most one parent (part of the spec's forest
invariant). -/
def uniqueParentB (nodes : List GNode) : Bool :=
  (List.range nodes.length).all (fun p =>
    (List.range nodes.length).all (fun q =>
      decide (p = q) || (childrenOf nodes p).all (fun c => ¬ (childrenOf nodes q).contains c)))

/-- `rank` certifies acyclicity of the child graph: every edge strictly
increases it.  A finite child graph is acyclic exactly when such a rank
exists. -/
def rankOkB (nodes : List GNode) (rank : ℕ → ℕ) : Bool :=
  (List.range nodes.length).all (fun p =>
    (childrenOf nodes p).all (fun c => decide (rank p < rank c)))

/-- All node references held outside the node list (scene roots, skin joints
and skeletons, animation channel targets) are in range; needed for the
Python remap step not to raise KeyError. -/
def docRefsInRange (d : BDoc) : Bool :=
  d.scenes.all (fun sc => sc.nodes.all (fun c => decide (c < d.nodes.length))) &&
  d.skins.all (fun sk =>
    sk.joints.all (fun c => decide (c < d.nodes.length)) &&
    (match sk.skeleton with
     | some s => decide (s < d.nodes.length)
     | none => true)) &&
  d.animations.all (fun an => an.channels.all (fun ch =>
    match ch.targetNode with
    | some t => decide (t < d.nodes.length)
    | none => true))

/-- `l'` extends `l` on the right. -/
def Grows (l l' : List ℕ) : Prop := ∃ t, l' = l ++ t

end BoneOrder

/-! Concrete documents used by the per-claim counterexamples and witnesses. -/

/-- The spec §8 malformed scenario: node 0's child is node 2, node 2 wrongly
points back to node 0, node 1 is isolated. -/
def cycNodes3 : List BoneOrder.GNode := [⟨[2], 0⟩, ⟨[], 1⟩, ⟨[0], 2⟩]

/-- The cyclic scenario as a document, used by the C3 counterexample. -/
def c3doc : BoneOrder.BDoc := ⟨cycNodes3, [], [], []⟩

/-- The same cyclic scenario, used by the C6 theorem. -/
def c6doc : BoneOrder.BDoc := ⟨[⟨[2], 0⟩, ⟨[], 1⟩, ⟨[0], 2⟩], [], [], []⟩

/-- A two-node forest serialized child-before-parent (node 1's child is node
0), with one scene, one skin and one animation channel referencing both
nodes; used by the C3/C4/C5 witnesses. -/
def forestDoc : BoneOrder.BDoc :=
  ⟨[⟨[], 0⟩, ⟨[0], 1⟩], [⟨[1]⟩], [⟨[1, 0], some 1⟩], [⟨[⟨some 0⟩]⟩]⟩

/-- A rank function certifying acyclicity of `forestDoc`'s child graph. -/
def forestRank : ℕ → ℕ := fun i => if i = 1 then 0 else 1

/-- One node that lists itself as its own child: the smallest cyclic joint
graph; used by the C10 counterexample. -/
def loopNodes : List BoneOrder.GNode := [⟨[0], 0⟩]

/-- Two nodes with node 0 the parent of node 1; with the duplicated joint
list `[1, 0, 1]` this is the C10 witness scenario. -/
def chainNodes : List BoneOrder.GNode := [⟨[1], 0⟩, ⟨[], 1⟩]

namespace AnimTiming

/-- An accessor as read by GLTFAnimationFixer. -/
structure A8 where
  bufferView : Option ℕ
  byteOffset : ℕ
  componentType : ℕ
  type : String
  count : ℕ
deriving DecidableEq, Repr

/-- A buffer view: byte offset and optional explicit stride. -/
structure BV8 where
  byteOffset : ℕ
  byteStride : Option ℕ
deriving DecidableEq, Repr

/-- The document part consulted by `write_accessor_data`. -/
structure Doc8 where
  accessors : List A8
  bufferViews : List BV8
deriving DecidableEq, Repr

/-- `COMPONENT_TYPES`: component size per component-type code; `none` for an
unknown code. -/
def COMPONENT_TYPES : ℕ → Option ℕ
  | 5120 => some 1
  | 5121 => some 1
  | 5122 => some 2
  | 5123 => some 2
  | 5125 => some 4
  | 5126 => some 4
  | _ => none

/-- `TYPE_SIZES.get(t, 1)`. -/
def TYPE_SIZES : String → ℕ
  | "SCALAR" => 1
  | "VEC2" => 2
  | "VEC3" => 3
  | "VEC4" => 4
  | "MAT2" => 4
  | "MAT3" => 9
  | "MAT4" => 16
  | _ => 1

/-- The inner component loop of `write_accessor_data` (lines 226–237):
recursion on the number of remaining components of the current element,
carrying the component index `j` and `value_idx`.  `false` models the
`return False` taken when a write would pass the end of the buffer; the
partially written buffer is returned with it (Python mutates in place). -/
def writeInner (ct cs : ℕ) (values : List F) (pos : ℕ) :
    ℕ → ℕ → ℕ → Buf → Bool × Buf × ℕ
  | 0, _, vidx, b => (true, b, vidx)
  | jrem + 1, j, vidx, b =>
    if values.length ≤ vidx then (true, b, vidx)
    else if b.size < pos + j * cs + cs then (false, b, vidx)
    else
      writeInner ct cs values pos jrem (j + 1) (vidx + 1)
        (bufWrite b ct (pos + j * cs) (values.getD vidx (F.fin 0)))

/-- The outer element loop of `write_accessor_data` (lines 219–237). -/
def writeOuter (ct cs ts stride totalOff : ℕ) (values : List F) :
    ℕ → ℕ → ℕ → Buf → Bool × Buf × ℕ
  | 0, _, vidx, b => (true, b, vidx)
  | irem + 1, i, vidx, b =>
    if values.length ≤ vidx then (true, b, vidx)
    else
      match writeInner ct cs values (totalOff + i * stride) ts 0 vidx b with
      | (false, b', vidx') => (false, b', vidx')
      | (true, b', vidx') => writeOuter ct cs ts stride totalOff values irem (i + 1) vidx' b'

/-- `GLTFAnimationFixer.write_accessor_data`: `some (ok, buf')` is the
Python return value together with the mutated buffer; `none` models the
uncaught IndexError raised when the accessor's bufferView reference is out
of range of `bufferViews`. -/
def write_accessor_data (d : Doc8) (b : Buf) (accIdx : ℕ) (values : List F) :
    Option (Bool × Buf) :=
  match d.accessors.get? accIdx with
  | none => some (false, b)
  | some acc =>
    match acc.bufferView with
    | none => some (false, b)
    | some bvi =>
      match d.bufferViews.get? bvi with
      | none => none
      | some bv =>
        match COMPONENT_TYPES acc.componentType with
        | none => some (false, b)
        | some cs =>
          let ts := TYPE_SIZES acc.type
          let stride := bv.byteStride.getD (cs * ts)
          let totalOff := bv.byteOffset + acc.byteOffset
          match writeOuter acc.componentType cs ts stride totalOff values acc.count 0 0 b with
          | (ok, b', _) => some (ok, b')

end AnimTiming

/-- A buffer whose every decoded float is NaN. -/
def nanBuf8 : Buf := ⟨8, fun _ _ => F.nan⟩

/-- A buffer whose every decoded float is 1. -/
def oneBuf8 : Buf := ⟨8, fun _ _ => F.fin 1⟩

/-- A two-element timing accessor whose stored min is NaN and stored max is
negative infinity; C1 witness. -/
def c1acc : Daybreak.DAcc := ⟨some 0, 0, 5126, "SCALAR", 2, some [F.nan], some [F.inf false]⟩

/-- Initial per-pass state holding `c1acc` over the all-NaN buffer. -/
def c1st : Daybreak.TState := ⟨[c1acc], nanBuf8, [], 0⟩

/-- A two-element timing accessor with min > max but sane raw data; C2
timing-side witness. -/
def c2acc : Daybreak.DAcc := ⟨some 0, 0, 5126, "SCALAR", 2, some [F.fin 9], some [F.fin 1]⟩

/-- Initial per-pass state holding `c2acc` over the all-ones buffer. -/
def c2st : Daybreak.TState := ⟨[c2acc], oneBuf8, [], 0⟩

/-- A two-element scalar spatial accessor with an implausible stored min;
C2 spatial-side witness. -/
def c2sacc : Daybreak.DAcc :=
  ⟨some 0, 0, 5126, "SCALAR", 2, some [F.fin 20000], some [F.fin 1]⟩

/-- A spatial accessor with implausible stored bounds over the all-NaN
buffer; C9 witness. -/
def c9acc : Daybreak.DAcc :=
  ⟨some 0, 0, 5126, "SCALAR", 2, some [F.fin 20000], some [F.fin 1]⟩

/-- A document whose single animation sampler references accessor 0 while
the accessors array is empty; the C7 counterexample. -/
def c7bad : Daybreak.DDoc := ⟨[⟨[⟨some 0⟩]⟩], [], [], 0, true, true⟩

/-- A well-formed document: one sampler over one corrupt timing accessor
backed by the all-NaN buffer; the C7 witness. -/
def c7good : Daybreak.DDoc :=
  ⟨[⟨[⟨some 0⟩]⟩], [⟨some 0, 0, 5126, "SCALAR", 2, some [F.nan], some [F.fin 0]⟩],
   [⟨0, some 0⟩], 1, true, true⟩

/-- A document for `write_accessor_data` whose accessor 0 holds two floats
while the buffer only has room for one; the C8 witness. -/
def c8doc : AnimTiming.Doc8 := ⟨[⟨some 0, 0, 5126, "SCALAR", 2⟩], [⟨0, none⟩]⟩

/-- A four-byte buffer of ones. -/
def oneBuf4 : Buf := ⟨4, fun _ _ => F.fin 1⟩


/-! ## Helper lemmas about the Python min/max folds -/

theorem pyminAux_of_no_lt (m : F) (xs : List F) (h : ∀ x ∈ xs, flt x m = false) :
    pyminAux m xs = m := by
  induction xs with
  | nil => rfl
  | cons x xs ih =>
    have hx := h x (List.mem_cons_self _ _)
    simp only [pyminAux, hx, if_false]
    exact ih (fun y hy => h y (List.mem_cons_of_mem _ hy))

theorem pyminAux_append (m : F) (xs : List F) (y : F) :
    pyminAux m (xs ++ [y]) = (if flt y (pyminAux m xs) then y else pyminAux m xs) := by
  induction xs generalizing m with
  | nil => rfl
  | cons x xs ih =>
    show pyminAux (if flt x m then x else m) (xs ++ [y]) = _
    rw [ih]
    rfl

theorem pymaxAux_append (m : F) (xs : List F) (y : F) :
    pymaxAux m (xs ++ [y]) = (if flt (pymaxAux m xs) y then y else pymaxAux m xs) := by
  induction xs generalizing m with
  | nil => rfl
  | cons x xs ih =>
    show pymaxAux (if flt m x then x else m) (xs ++ [y]) = _
    rw [ih]
    rfl

theorem synthTimes_succ (k : ℕ) :
    Daybreak.synthTimes (k + 1) = Daybreak.synthTimes k ++ [F.fin ((k : ℚ) / 30)] := by
  unfold Daybreak.synthTimes
  rw [List.range_succ, List.map_append]
  rfl

theorem synthTimes_length (count : ℕ) : (Daybreak.synthTimes count).length = count := by
  unfold Daybreak.synthTimes
  rw [List.length_map, List.length_range]

theorem pymin_synth (count : ℕ) (h : 1 ≤ count) :
    pymin (Daybreak.synthTimes count) = some (F.fin 0) := by
  obtain ⟨k, rfl⟩ : ∃ k, count = k + 1 := ⟨count - 1, by omega⟩
  unfold Daybreak.synthTimes
  rw [List.range_succ_eq_map, List.map_cons]
  show some (pyminAux (F.fin (((0 : ℕ) : ℚ) / 30)) _) = some (F.fin 0)
  have h0 : (((0 : ℕ) : ℚ) / 30) = 0 := by norm_num
  rw [h0, pyminAux_of_no_lt]
  intro x hx
  simp only [List.map_map, List.mem_map, List.mem_range, Function.comp] at hx
  obtain ⟨i, _, rfl⟩ := hx
  simp only [flt, decide_eq_false_iff_not, not_lt]
  positivity

theorem pymax_synth (count : ℕ) (h : 1 ≤ count) :
    pymax (Daybreak.synthTimes count) = some (F.fin (((count - 1 : ℕ) : ℚ) / 30)) := by
  obtain ⟨k, rfl⟩ : ∃ k, count = k + 1 := ⟨count - 1, by omega⟩
  clear h
  induction k with
  | zero => rfl
  | succ k ih =>
    rw [synthTimes_succ (k + 1)]
    have hne : Daybreak.synthTimes (k + 1) ≠ [] := by
      intro hempty
      have hlen := synthTimes_length (k + 1)
      rw [hempty] at hlen
      simp at hlen
    obtain ⟨t, ts, hts⟩ := List.exists_cons_of_ne_nil hne
    rw [hts]
    rw [hts] at ih
    have hmax : pymaxAux t ts = F.fin (((k + 1 - 1 : ℕ) : ℚ) / 30) := by
      simpa [pymax] using ih
    have hk : (k + 1 - 1 : ℕ) = k := rfl
    rw [hk] at hmax
    show some (pymaxAux t (ts ++ [F.fin (((k + 1 : ℕ) : ℚ) / 30)])) = _
    rw [pymaxAux_append, hmax]
    have hlt : flt (F.fin ((k : ℚ) / 30)) (F.fin (((k + 1 : ℕ) : ℚ) / 30)) = true := by
      simp only [flt, decide_eq_true_eq]
      gcongr
      linarith
    rw [hlt]
    norm_num

theorem pyminAux_exact (xs : List F) :
    ∀ (m : ℚ), (∀ v ∈ xs, ∃ q : ℚ, v = F.fin q) →
    ∃ q : ℚ, pyminAux (F.fin m) xs = F.fin q ∧ (q = m ∨ F.fin q ∈ xs) ∧
      q ≤ m ∧ ∀ r : ℚ, F.fin r ∈ xs → q ≤ r := by
  induction xs with
  | nil => exact fun m _ => ⟨m, rfl, Or.inl rfl, le_refl m, by simp⟩
  | cons x xs ih =>
    intro m hfin
    obtain ⟨qx, rfl⟩ := hfin x (List.mem_cons_self _ _)
    have hfin' : ∀ v ∈ xs, ∃ q : ℚ, v = F.fin q :=
      fun v hv => hfin v (List.mem_cons_of_mem _ hv)
    by_cases hlt : qx < m
    · have hb : flt (F.fin qx) (F.fin m) = true := by simp [flt, hlt]
      simp only [pyminAux, hb, if_true]
      obtain ⟨q, h1, h2, h3, h4⟩ := ih qx hfin'
      refine ⟨q, h1, ?_, le_trans h3 hlt.le, ?_⟩
      · rcases h2 with h2 | h2
        · exact Or.inr (h2 ▸ List.mem_cons_self _ _)
        · exact Or.inr (List.mem_cons_of_mem _ h2)
      · intro r hr
        rcases List.mem_cons.mp hr with hr | hr
        · have hrq : r = qx := by injection hr
          exact hrq ▸ h3
        · exact h4 r hr
    · have hb : flt (F.fin qx) (F.fin m) = false := by simp [flt, hlt]
      simp only [pyminAux, hb, if_false]
      obtain ⟨q, h1, h2, h3, h4⟩ := ih m hfin'
      refine ⟨q, h1, ?_, h3, ?_⟩
      · rcases h2 with h2 | h2
        · exact Or.inl h2
        · exact Or.inr (List.mem_cons_of_mem _ h2)
      · intro r hr
        rcases List.mem_cons.mp hr with hr | hr
        · have hrq : r = qx := by injection hr
          have hmq : m ≤ qx := not_lt.mp hlt
          exact hrq ▸ le_trans h3 hmq
        · exact h4 r hr

theorem pymaxAux_exact (xs : List F) :
    ∀ (m : ℚ), (∀ v ∈ xs, ∃ q : ℚ, v = F.fin q) →
    ∃ q : ℚ, pymaxAux (F.fin m) xs = F.fin q ∧ (q = m ∨ F.fin q ∈ xs) ∧
      m ≤ q ∧ ∀ r : ℚ, F.fin r ∈ xs → r ≤ q := by
  induction xs with
  | nil => exact fun m _ => ⟨m, rfl, Or.inl rfl, le_refl m, by simp⟩
  | cons x xs ih =>
    intro m hfin
    obtain ⟨qx, rfl⟩ := hfin x (List.mem_cons_self _ _)
    have hfin' : ∀ v ∈ xs, ∃ q : ℚ, v = F.fin q :=
      fun v hv => hfin v (List.mem_cons_of_mem _ hv)
    by_cases hlt : m < qx
    · have hb : flt (F.fin m) (F.fin qx) = true := by simp [flt, hlt]
      simp only [pymaxAux, hb, if_true]
      obtain ⟨q, h1, h2, h3, h4⟩ := ih qx hfin'
      refine ⟨q, h1, ?_, le_trans hlt.le h3, ?_⟩
      · rcases h2 with h2 | h2
        · exact Or.inr (h2 ▸ List.mem_cons_self _ _)
        · exact Or.inr (List.mem_cons_of_mem _ h2)
      · intro r hr
        rcases List.mem_cons.mp hr with hr | hr
        · have hrq : r = qx := by injection hr
          exact hrq ▸ h3
        · exact h4 r hr
    · have hb : flt (F.fin m) (F.fin qx) = false := by simp [flt, hlt]
      simp only [pymaxAux, hb, if_false]
      obtain ⟨q, h1, h2, h3, h4⟩ := ih m hfin'
      refine ⟨q, h1, ?_, h3, ?_⟩
      · rcases h2 with h2 | h2
        · exact Or.inl h2
        · exact Or.inr (List.mem_cons_of_mem _ h2)
      · intro r hr
        rcases List.mem_cons.mp hr with hr | hr
        · have hrq : r = qx := by injection hr
          have hmq : qx ≤ m := not_lt.mp hlt
          exact hrq ▸ le_trans hmq h3
        · exact h4 r hr

/-- A value passing the per-sample corruption test is a finite rational. -/
theorem not_sampleCorrupt_fin (v : F) (h : sampleCorrupt v = false) : ∃ q : ℚ, v = F.fin q := by
  cases v with
  | nan => simp [sampleCorrupt, isnan] at h
  | inf s => simp [sampleCorrupt, isinf] at h
  | fin q => exact ⟨q, rfl⟩

/-- A value passing the spatial plausibility test is a finite rational with
magnitude at most 10000. -/
theorem not_extremeVal_fin (v : F) (h : extremeVal v = false) :
    ∃ q : ℚ, v = F.fin q ∧ |q| ≤ 10000 := by
  cases v with
  | nan => simp [extremeVal, isnan] at h
  | inf s => simp [extremeVal, isinf] at h
  | fin q =>
    refine ⟨q, rfl, ?_⟩
    simp only [extremeVal, fabs, isinf, isnan, Bool.or_false] at h
    simp only [fgt, flt, decide_eq_false_iff_not, not_lt] at h
    exact_mod_cast h

/-! ## Helper lemmas about buffer reads and writes -/

theorem readTimes_full (b : Buf) (off count : ℕ) (h : off + 4 * count ≤ b.size) :
    Daybreak.readTimes b off count =
      (List.range count).map (fun i : ℕ => b.data Daybreak.FLOAT (off + i * 4)) := by
  unfold Daybreak.readTimes
  rw [← List.filterMap_eq_map]
  apply List.filterMap_congr
  intro i hi
  rw [List.mem_range] at hi
  have hbound : off + i * 4 + 4 ≤ b.size := by omega
  rw [if_pos hbound]
  rfl

theorem readTimes_length (b : Buf) (off count : ℕ) (h : off + 4 * count ≤ b.size) :
    (Daybreak.readTimes b off count).length = count := by
  rw [readTimes_full b off count h, List.length_map, List.length_range]

theorem writeTimes_ok : ∀ (vs : List F) (i : ℕ) (b : Buf) (off : ℕ),
    off + (i + vs.length) * 4 ≤ b.size →
    ∃ b', Daybreak.writeTimes b off vs i = .ok b' ∧ b'.size = b.size ∧
      (∀ j, j < vs.length → b'.data Daybreak.FLOAT (off + (i + j) * 4) = vs.getD j (F.fin 0)) ∧
      (∀ ct o, (∀ j, j < vs.length → ¬(ct = Daybreak.FLOAT ∧ o = off + (i + j) * 4)) →
        b'.data ct o = b.data ct o) := by
  intro vs
  induction vs with
  | nil =>
    intro i b off h
    exact ⟨b, rfl, rfl, by simp, fun ct o _ => rfl⟩
  | cons v vs ih =>
    intro i b off h
    have hlen : (v :: vs).length = vs.length + 1 := rfl
    have hbound : off + i * 4 + 4 ≤ b.size := by
      rw [hlen] at h
      omega
    have hstep : Daybreak.writeTimes b off (v :: vs) i =
        Daybreak.writeTimes (bufWrite b Daybreak.FLOAT (off + i * 4) v) off vs (i + 1) := by
      rw [Daybreak.writeTimes, if_pos hbound]
    have hsize1 : (bufWrite b Daybreak.FLOAT (off + i * 4) v).size = b.size := rfl
    have hrec : off + (i + 1 + vs.length) * 4 ≤ (bufWrite b Daybreak.FLOAT (off + i * 4) v).size := by
      rw [hsize1]
      rw [hlen] at h
      omega
    obtain ⟨b', heq, hsize, hwrites, hframe⟩ := ih (i + 1) (bufWrite b Daybreak.FLOAT (off + i * 4) v) off hrec
    refine ⟨b', by rw [hstep, heq], by rw [hsize, hsize1], ?_, ?_⟩
    · intro j hj
      cases j with
      | zero =>
        have hnot : ∀ j', j' < vs.length → ¬(Daybreak.FLOAT = Daybreak.FLOAT ∧ off + (i + 0) * 4 = off + (i + 1 + j') * 4) := by
          intro j' _ hcontra
          omega
        rw [hframe _ _ hnot]
        simp [bufWrite]
      | succ j' =>
        have hj' : j' < vs.length := by
          rw [hlen] at hj
          omega
        have harith : i + (j' + 1) = i + 1 + j' := by omega
        have := hwrites j' hj'
        rw [harith]
        exact this
    · intro ct o hno
      have hno' : ∀ j', j' < vs.length → ¬(ct = Daybreak.FLOAT ∧ o = off + (i + 1 + j') * 4) := by
        intro j' hj' hcontra
        have harith : i + 1 + j' = i + (j' + 1) := by omega
        exact hno (j' + 1) (by rw [hlen]; omega) ⟨hcontra.1, by rw [harith] at hcontra; exact hcontra.2⟩
      rw [hframe ct o hno']
      have hne : ¬(ct = Daybreak.FLOAT ∧ o = off + (i + 0) * 4) := hno 0 (by rw [hlen]; omega)
      simp only [bufWrite]
      rw [if_neg]
      intro hcontra
      exact hne ⟨hcontra.1, by omega⟩

theorem synthTimes_getD (count j : ℕ) (h : j < count) :
    (Daybreak.synthTimes count).getD j (F.fin 0) = F.fin ((j : ℚ) / 30) := by
  unfold Daybreak.synthTimes
  rw [List.getD_eq_getElem?_getD, List.getElem?_map, List.getElem?_range h]
  rfl

/-- C1: for an animation-sampler timing accessor whose stored min/max bounds
are classified corrupted and whose raw buffer samples are themselves
corrupted, the repair writes into the buffer the synthesized sequence of
exactly `count` timestamps `t[i] = i/30` — strictly increasing, starting at
0, touching no other buffer location — and sets the accessor's min to `[0]`
and max to `[(count-1)/30]`. -/
theorem c1_timing_synthesis
    (bvs : List Daybreak.DBV) (ai si idx : ℕ) (st : Daybreak.TState)
    (s : Daybreak.DSampler) (acc : Daybreak.DAcc) (bvi : ℕ) (bv : Daybreak.DBV) (mn mx : F)
    (hinput : s.input = some idx)
    (hacc : st.accessors.get? idx = some acc)
    (hmn : Daybreak.first0 acc.min = .ok mn)
    (hmx : Daybreak.first0 acc.max = .ok mx)
    (hcorr : timingCorrupt mn mx = true)
    (hbv : acc.bufferView = some bvi)
    (hbvget : bvs.get? bvi = some bv)
    (hcount : 1 ≤ acc.count)
    (hcover : bv.byteOffset + acc.byteOffset + 4 * acc.count ≤ st.buf.size)
    (hraw : (Daybreak.readTimes st.buf (bv.byteOffset + acc.byteOffset) acc.count).any
      sampleCorrupt = true) :
    ∃ st', Daybreak.samplerStep bvs ai si st s = .ok st' ∧
      st'.buf.size = st.buf.size ∧
      (∀ i, i < acc.count →
        st'.buf.data Daybreak.FLOAT (bv.byteOffset + acc.byteOffset + i * 4) =
          F.fin ((i : ℚ) / 30)) ∧
      (∀ i j, i < j → j < acc.count →
        flt (st'.buf.data Daybreak.FLOAT (bv.byteOffset + acc.byteOffset + i * 4))
            (st'.buf.data Daybreak.FLOAT (bv.byteOffset + acc.byteOffset + j * 4)) = true) ∧
      (∀ ct o, (∀ j, j < acc.count → ¬(ct = Daybreak.FLOAT ∧ o = bv.byteOffset + acc.byteOffset + j * 4)) →
        st'.buf.data ct o = st.buf.data ct o) ∧
      st'.accessors.get? idx =
        some { acc with min := some [F.fin 0], max := some [F.fin (((acc.count - 1 : ℕ) : ℚ) / 30)] } ∧
      st'.fixes = st.fixes ++ [.regenTiming ai si acc.count, .fixedTiming ai si] := by
  have hwbound : (bv.byteOffset + acc.byteOffset) + (0 + (Daybreak.synthTimes acc.count).length) * 4 ≤ st.buf.size := by
    rw [synthTimes_length]
    omega
  obtain ⟨b', heqw, hsize, hwrites, hframe⟩ :=
    writeTimes_ok (Daybreak.synthTimes acc.count) 0 st.buf (bv.byteOffset + acc.byteOffset) hwbound
  have hrtlen : (Daybreak.readTimes st.buf (bv.byteOffset + acc.byteOffset) acc.count).length = acc.count :=
    readTimes_length _ _ _ (by omega)
  obtain ⟨t, ts, hts⟩ : ∃ t ts, Daybreak.readTimes st.buf (bv.byteOffset + acc.byteOffset) acc.count = t :: ts := by
    cases hC : Daybreak.readTimes st.buf (bv.byteOffset + acc.byteOffset) acc.count with
    | nil => rw [hC] at hrtlen; simp at hrtlen; omega
    | cons t ts => exact ⟨t, ts, rfl⟩
  have hraw' : (t :: ts).any sampleCorrupt = true := by rw [← hts]; exact hraw
  have hmin := pymin_synth acc.count hcount
  have hmax := pymax_synth acc.count hcount
  have hidx : idx < st.accessors.length := (List.get?_eq_some.mp hacc).1
  have heval : Daybreak.samplerStep bvs ai si st s = .ok
      { accessors := st.accessors.set idx
          { acc with min := some [F.fin 0], max := some [F.fin (((acc.count - 1 : ℕ) : ℚ) / 30)] },
        buf := b',
        fixes := st.fixes ++ [.regenTiming ai si acc.count, .fixedTiming ai si],
        fixedCount := st.fixedCount + 1 } := by
    simp only [Daybreak.samplerStep, hinput, hacc, hmn, hmx, hcorr, if_true, hbv, hbvget,
      hts, hraw', heqw, hmin, hmax, Option.getD_some]
  refine ⟨_, heval, hsize, ?_, ?_, ?_, ?_, rfl⟩
  · intro i hi
    have hw := hwrites i (by rw [synthTimes_length]; exact hi)
    rw [Nat.zero_add] at hw
    rw [hw, synthTimes_getD acc.count i hi]
  · intro i j hij hj
    have hwi := hwrites i (by rw [synthTimes_length]; omega)
    have hwj := hwrites j (by rw [synthTimes_length]; exact hj)
    rw [Nat.zero_add] at hwi hwj
    rw [hwi, hwj, synthTimes_getD acc.count i (by omega), synthTimes_getD acc.count j hj]
    simp only [flt, decide_eq_true_eq]
    gcongr
  · intro ct o hno
    apply hframe
    intro j hj
    rw [synthTimes_length] at hj
    have := hno j hj
    rw [Nat.zero_add]
    exact this
  · rw [List.get?_set_eq_of_lt _ hidx]

/-- Witness for C1 at a concrete corrupted sampler: two NaN samples over an
8-byte buffer, stored bounds NaN and negative infinity. -/
theorem c1_timing_synthesis_witness :
    ∃ st', Daybreak.samplerStep [⟨0, some 0⟩] 0 0 c1st ⟨some 0⟩ = .ok st' ∧
      st'.buf.size = c1st.buf.size ∧
      (∀ i, i < 2 →
        st'.buf.data Daybreak.FLOAT (0 + 0 + i * 4) = F.fin ((i : ℚ) / 30)) ∧
      (∀ i j, i < j → j < 2 →
        flt (st'.buf.data Daybreak.FLOAT (0 + 0 + i * 4))
            (st'.buf.data Daybreak.FLOAT (0 + 0 + j * 4)) = true) ∧
      (∀ ct o, (∀ j, j < 2 → ¬(ct = Daybreak.FLOAT ∧ o = 0 + 0 + j * 4)) →
        st'.buf.data ct o = c1st.buf.data ct o) ∧
      st'.accessors.get? 0 =
        some { c1acc with min := some [F.fin 0], max := some [F.fin (((2 - 1 : ℕ) : ℚ) / 30)] } ∧
      st'.fixes = c1st.fixes ++ [.regenTiming 0 0 2, .fixedTiming 0 0] :=
  c1_timing_synthesis [⟨0, some 0⟩] 0 0 0 c1st ⟨some 0⟩ c1acc 0 ⟨0, some 0⟩ F.nan (F.inf false)
    rfl rfl rfl rfl rfl rfl rfl (by decide) (by decide) rfl

/-! ## Helper lemmas for the spatial-bounds pass -/

theorem extremeFold_buf (bvs : List Daybreak.DBV) :
    ∀ (l : List (ℕ × Daybreak.DAcc)) (st : Daybreak.EState),
      (l.foldl (Daybreak.extremeFold bvs) st).buf = st.buf := by
  intro l
  induction l with
  | nil => intro st; rfl
  | cons p l ih => intro st; rw [List.foldl_cons, ih]; rfl

theorem fix_extreme_coordinates_buf (bvs : List Daybreak.DBV) (b : Buf)
    (accs : List Daybreak.DAcc) :
    (Daybreak.fix_extreme_coordinates bvs b accs).buf = b := by
  unfold Daybreak.fix_extreme_coordinates
  rw [extremeFold_buf]

theorem pymin_all_fin (col : List F) (hne : col ≠ [])
    (hfin : ∀ v ∈ col, ∃ q : ℚ, v = F.fin q) :
    ∃ qm : ℚ, pymin col = some (F.fin qm) ∧ F.fin qm ∈ col ∧
      ∀ r : ℚ, F.fin r ∈ col → qm ≤ r := by
  obtain ⟨v0, rest, rfl⟩ := List.exists_cons_of_ne_nil hne
  obtain ⟨q0, rfl⟩ := hfin _ (List.mem_cons_self _ _)
  obtain ⟨q, h1, h2, h3, h4⟩ :=
    pyminAux_exact rest q0 (fun v hv => hfin v (List.mem_cons_of_mem _ hv))
  refine ⟨q, by simp [pymin, h1], ?_, ?_⟩
  · rcases h2 with h2 | h2
    · exact h2 ▸ List.mem_cons_self _ _
    · exact List.mem_cons_of_mem _ h2
  · intro r hr
    rcases List.mem_cons.mp hr with hr | hr
    · have hrq : r = q0 := by injection hr
      exact hrq ▸ h3
    · exact h4 r hr

theorem pymax_all_fin (col : List F) (hne : col ≠ [])
    (hfin : ∀ v ∈ col, ∃ q : ℚ, v = F.fin q) :
    ∃ qM : ℚ, pymax col = some (F.fin qM) ∧ F.fin qM ∈ col ∧
      ∀ r : ℚ, F.fin r ∈ col → r ≤ qM := by
  obtain ⟨v0, rest, rfl⟩ := List.exists_cons_of_ne_nil hne
  obtain ⟨q0, rfl⟩ := hfin _ (List.mem_cons_self _ _)
  obtain ⟨q, h1, h2, h3, h4⟩ :=
    pymaxAux_exact rest q0 (fun v hv => hfin v (List.mem_cons_of_mem _ hv))
  refine ⟨q, by simp [pymax, h1], ?_, ?_⟩
  · rcases h2 with h2 | h2
    · exact h2 ▸ List.mem_cons_self _ _
    · exact List.mem_cons_of_mem _ h2
  · intro r hr
    rcases List.mem_cons.mp hr with hr | hr
    · have hrq : r = q0 := by injection hr
      exact hrq ▸ h3
    · exact h4 r hr

theorem spatialCols_getElem? (b : Buf) (off count ncomp : ℕ)
    (h : off + 4 * (count * ncomp) ≤ b.size) (comp : ℕ) (hc : comp < ncomp) :
    (Daybreak.spatialCols b off count ncomp)[comp]? =
      some ((List.range count).map
        (fun i : ℕ => b.data Daybreak.FLOAT (off + (i * ncomp + comp) * 4))) := by
  unfold Daybreak.spatialCols
  rw [List.getElem?_map, List.getElem?_range hc]
  simp only [Option.map_some']
  congr 1
  rw [← List.filterMap_eq_map]
  apply List.filterMap_congr
  intro i hi
  rw [List.mem_range] at hi
  have h1 : i * ncomp + comp + 1 ≤ (i + 1) * ncomp := by
    rw [Nat.succ_mul]
    omega
  have h2 : (i + 1) * ncomp ≤ count * ncomp := Nat.mul_le_mul_right ncomp (by omega)
  have h3 : i * ncomp + comp + 1 ≤ count * ncomp := le_trans h1 h2
  unfold readAt
  rw [if_pos (by omega)]
  rfl

theorem spatialCols_length (b : Buf) (off count ncomp : ℕ) :
    (Daybreak.spatialCols b off count ncomp).length = ncomp := by
  unfold Daybreak.spatialCols
  rw [List.length_map, List.length_range]

/-- C2: for every accessor whose stored min/max bounds are implausible but
whose raw decoded values are all finite and plausible, the repair sets the
accessor's min and max per-component to exactly the true minimum and maximum
of the decoded data and leaves the binary buffer unchanged (bounds-only
write).  First conjunct: the spatial pass (`fix_extreme_coordinates`);
second conjunct: the timing pass (`fix_animation_timing`); third conjunct:
the spatial pass never writes the buffer at all. -/
theorem c2_bounds_only_repair :
    (∀ (bvs : List Daybreak.DBV) (b : Buf) (i : ℕ) (a : Daybreak.DAcc) (bvi : ℕ)
        (bv : Daybreak.DBV),
      a.componentType = Daybreak.FLOAT →
      a.bufferView = some bvi →
      bvs.get? bvi = some bv →
      (a.min.getD []).isEmpty = false →
      (a.max.getD []).isEmpty = false →
      ((a.min.getD []) ++ (a.max.getD [])).any extremeVal = true →
      1 ≤ a.count →
      bv.byteOffset + a.byteOffset + 4 * (a.count * Daybreak.type_sizes a.type) ≤ b.size →
      ((Daybreak.spatialCols b (bv.byteOffset + a.byteOffset) a.count
          (Daybreak.type_sizes a.type)).all
        (fun col => col.all (fun v => !extremeVal v))) = true →
      ∃ nmin nmax,
        Daybreak.extremeStep bvs b i a =
          ({ a with min := some nmin, max := some nmax }, some (.fixedBounds i), none) ∧
        nmin.length = Daybreak.type_sizes a.type ∧
        nmax.length = Daybreak.type_sizes a.type ∧
        (∀ comp, comp < Daybreak.type_sizes a.type → ∃ col qm qM,
          (Daybreak.spatialCols b (bv.byteOffset + a.byteOffset) a.count
            (Daybreak.type_sizes a.type))[comp]? = some col ∧
          nmin[comp]? = some (F.fin qm) ∧ nmax[comp]? = some (F.fin qM) ∧
          F.fin qm ∈ col ∧ F.fin qM ∈ col ∧
          ∀ r : ℚ, F.fin r ∈ col → qm ≤ r ∧ r ≤ qM)) ∧
    (∀ (bvs : List Daybreak.DBV) (ai si idx : ℕ) (st : Daybreak.TState)
        (s : Daybreak.DSampler) (acc : Daybreak.DAcc) (bvi : ℕ) (bv : Daybreak.DBV) (mn mx : F),
      s.input = some idx →
      st.accessors.get? idx = some acc →
      Daybreak.first0 acc.min = .ok mn →
      Daybreak.first0 acc.max = .ok mx →
      timingCorrupt mn mx = true →
      acc.bufferView = some bvi →
      bvs.get? bvi = some bv →
      Daybreak.readTimes st.buf (bv.byteOffset + acc.byteOffset) acc.count ≠ [] →
      (Daybreak.readTimes st.buf (bv.byteOffset + acc.byteOffset) acc.count).any
        sampleCorrupt = false →
      ∃ st' qm qM, Daybreak.samplerStep bvs ai si st s = .ok st' ∧
        st'.buf = st.buf ∧
        st'.accessors.get? idx =
          some { acc with min := some [F.fin qm], max := some [F.fin qM] } ∧
        F.fin qm ∈ Daybreak.readTimes st.buf (bv.byteOffset + acc.byteOffset) acc.count ∧
        F.fin qM ∈ Daybreak.readTimes st.buf (bv.byteOffset + acc.byteOffset) acc.count ∧
        (∀ r : ℚ, F.fin r ∈ Daybreak.readTimes st.buf (bv.byteOffset + acc.byteOffset) acc.count →
          qm ≤ r ∧ r ≤ qM) ∧
        st'.fixes = st.fixes ++ [.fixedTiming ai si]) ∧
    (∀ (bvs : List Daybreak.DBV) (b : Buf) (accs : List Daybreak.DAcc),
      (Daybreak.fix_extreme_coordinates bvs b accs).buf = b) := by
  refine ⟨?_, ?_, fix_extreme_coordinates_buf⟩
  · intro bvs b i a bvi bv h1 h2 h3 hm1 hm2 h6 hcount hcover h9
    have hlencols : (Daybreak.spatialCols b (bv.byteOffset + a.byteOffset) a.count
        (Daybreak.type_sizes a.type)).length = Daybreak.type_sizes a.type :=
      spatialCols_length _ _ _ _
    have hcolfin0 : ∀ col ∈ Daybreak.spatialCols b (bv.byteOffset + a.byteOffset) a.count
        (Daybreak.type_sizes a.type), ∀ v ∈ col, extremeVal v = false := by
      intro col hcol v hv
      have h' := List.all_eq_true.mp h9 col hcol
      have h'' := List.all_eq_true.mp h' v hv
      simpa using h''
    have hcolshape : ∀ comp, comp < Daybreak.type_sizes a.type →
        (Daybreak.spatialCols b (bv.byteOffset + a.byteOffset) a.count
          (Daybreak.type_sizes a.type))[comp]? =
        some ((List.range a.count).map
          (fun j : ℕ => b.data Daybreak.FLOAT
            ((bv.byteOffset + a.byteOffset) + (j * Daybreak.type_sizes a.type + comp) * 4))) :=
      fun comp hc => spatialCols_getElem? b _ a.count _ (by omega) comp hc
    have hcolform : ∀ col ∈ Daybreak.spatialCols b (bv.byteOffset + a.byteOffset) a.count
        (Daybreak.type_sizes a.type), col ≠ [] := by
      intro col hcol
      obtain ⟨comp, hq⟩ := List.mem_iff_getElem?.mp hcol
      have hlt : comp < Daybreak.type_sizes a.type := by
        by_contra hge
        rw [List.getElem?_eq_none (by omega)] at hq
        exact Option.noConfusion hq
      rw [hcolshape comp hlt] at hq
      have hform := Option.some_inj.mp hq
      intro hemp
      rw [hemp] at hform
      apply_fun List.length at hform
      simp at hform
      omega
    have hfinof : ∀ col ∈ Daybreak.spatialCols b (bv.byteOffset + a.byteOffset) a.count
        (Daybreak.type_sizes a.type), ∀ v ∈ col, ∃ q : ℚ, v = F.fin q := by
      intro col hcol v hv
      obtain ⟨q, hq, _⟩ := not_extremeVal_fin v (hcolfin0 col hcol v hv)
      exact ⟨q, hq⟩
    have hany : ((Daybreak.colMins (Daybreak.spatialCols b (bv.byteOffset + a.byteOffset)
          a.count (Daybreak.type_sizes a.type))) ++
        (Daybreak.colMaxs (Daybreak.spatialCols b (bv.byteOffset + a.byteOffset)
          a.count (Daybreak.type_sizes a.type)))).any extremeVal = false := by
      rw [List.any_eq_false]
      intro x hx
      rcases List.mem_append.mp hx with hx | hx
      · obtain ⟨col, hcol, hxeq⟩ := List.mem_map.mp hx
        obtain ⟨qm, hqm, hmem, _⟩ := pymin_all_fin col (hcolform col hcol) (hfinof col hcol)
        rw [← hxeq]
        simp only [hqm, Option.getD_some]
        exact Bool.not_eq_true _ ▸ hcolfin0 col hcol _ hmem
      · obtain ⟨col, hcol, hxeq⟩ := List.mem_map.mp hx
        obtain ⟨qM, hqM, hmem, _⟩ := pymax_all_fin col (hcolform col hcol) (hfinof col hcol)
        rw [← hxeq]
        simp only [hqM, Option.getD_some]
        exact Bool.not_eq_true _ ▸ hcolfin0 col hcol _ hmem
    refine ⟨Daybreak.colMins (Daybreak.spatialCols b (bv.byteOffset + a.byteOffset)
        a.count (Daybreak.type_sizes a.type)),
      Daybreak.colMaxs (Daybreak.spatialCols b (bv.byteOffset + a.byteOffset)
        a.count (Daybreak.type_sizes a.type)), ?_, ?_, ?_, ?_⟩
    · simp only [Daybreak.extremeStep, h1, h2, h3, hm1, hm2, h6, hany, ne_eq,
        not_true_eq_false, if_false, Bool.false_eq_true, Bool.or_self, if_true]
    · unfold Daybreak.colMins
      rw [List.length_map, hlencols]
    · unfold Daybreak.colMaxs
      rw [List.length_map, hlencols]
    · intro comp hc
      have hq := hcolshape comp hc
      have hcolmem : ((List.range a.count).map
          (fun j : ℕ => b.data Daybreak.FLOAT
            ((bv.byteOffset + a.byteOffset) + (j * Daybreak.type_sizes a.type + comp) * 4))) ∈
          Daybreak.spatialCols b (bv.byteOffset + a.byteOffset) a.count
            (Daybreak.type_sizes a.type) := by
        exact List.getElem?_mem hq
      obtain ⟨qm, hqm, hminmem, hqlb⟩ :=
        pymin_all_fin _ (hcolform _ hcolmem) (hfinof _ hcolmem)
      obtain ⟨qM, hqM, hmaxmem, hqub⟩ :=
        pymax_all_fin _ (hcolform _ hcolmem) (hfinof _ hcolmem)
      refine ⟨_, qm, qM, hq, ?_, ?_, hminmem, hmaxmem, fun r hr => ⟨hqlb r hr, hqub r hr⟩⟩
      · unfold Daybreak.colMins
        rw [List.getElem?_map, hq]
        simp [hqm]
      · unfold Daybreak.colMaxs
        rw [List.getElem?_map, hq]
        simp [hqM]
  · intro bvs ai si idx st s acc bvi bv mn mx hinput hacc hmn hmx hcorr hbv hbvget hne hraw0
    obtain ⟨t, ts, hts⟩ := List.exists_cons_of_ne_nil hne
    have hraw' : (t :: ts).any sampleCorrupt = false := hts ▸ hraw0
    have hfin : ∀ v ∈ t :: ts, ∃ q : ℚ, v = F.fin q := by
      intro v hv
      have hsc : sampleCorrupt v = false :=
        Bool.eq_false_iff.mpr (List.any_eq_false.mp hraw' v hv)
      exact not_sampleCorrupt_fin v hsc
    obtain ⟨qm, hqm, hqmem, hqlb⟩ := pymin_all_fin (t :: ts) (by simp) hfin
    obtain ⟨qM, hqM, hQmem, hqub⟩ := pymax_all_fin (t :: ts) (by simp) hfin
    have hminAux : pyminAux t ts = F.fin qm := by simpa [pymin] using hqm
    have hmaxAux : pymaxAux t ts = F.fin qM := by simpa [pymax] using hqM
    have hidx : idx < st.accessors.length := (List.get?_eq_some.mp hacc).1
    have heval : Daybreak.samplerStep bvs ai si st s = .ok
        { accessors := st.accessors.set idx
            { acc with min := some [F.fin qm], max := some [F.fin qM] },
          buf := st.buf,
          fixes := st.fixes ++ [.fixedTiming ai si],
          fixedCount := st.fixedCount + 1 } := by
      simp only [Daybreak.samplerStep, hinput, hacc, hmn, hmx, hcorr, if_true, hbv, hbvget,
        hts, hraw', hminAux, hmaxAux, Bool.false_eq_true, if_false]
    refine ⟨_, qm, qM, heval, rfl, ?_, hts ▸ hqmem, hts ▸ hQmem, ?_, rfl⟩
    · rw [List.get?_set_eq_of_lt _ hidx]
    · intro r hr
      rw [hts] at hr
      exact ⟨hqlb r hr, hqub r hr⟩

/-- Witness for C2: a scalar spatial accessor with implausible stored min
over an all-ones buffer, a timing accessor with min > max over the same
buffer, and buffer preservation at a concrete call. -/
theorem c2_bounds_only_repair_witness :
    (∃ nmin nmax,
      Daybreak.extremeStep [⟨0, some 0⟩] oneBuf8 0 c2sacc =
        ({ c2sacc with min := some nmin, max := some nmax }, some (.fixedBounds 0), none) ∧
      nmin.length = Daybreak.type_sizes c2sacc.type ∧
      nmax.length = Daybreak.type_sizes c2sacc.type ∧
      (∀ comp, comp < Daybreak.type_sizes c2sacc.type → ∃ col qm qM,
        (Daybreak.spatialCols oneBuf8 (0 + 0) c2sacc.count
          (Daybreak.type_sizes c2sacc.type))[comp]? = some col ∧
        nmin[comp]? = some (F.fin qm) ∧ nmax[comp]? = some (F.fin qM) ∧
        F.fin qm ∈ col ∧ F.fin qM ∈ col ∧
        ∀ r : ℚ, F.fin r ∈ col → qm ≤ r ∧ r ≤ qM)) ∧
    (∃ st' qm qM, Daybreak.samplerStep [⟨0, some 0⟩] 0 0 c2st ⟨some 0⟩ = .ok st' ∧
      st'.buf = c2st.buf ∧
      st'.accessors.get? 0 =
        some { c2acc with min := some [F.fin qm], max := some [F.fin qM] } ∧
      F.fin qm ∈ Daybreak.readTimes c2st.buf (0 + 0) c2acc.count ∧
      F.fin qM ∈ Daybreak.readTimes c2st.buf (0 + 0) c2acc.count ∧
      (∀ r : ℚ, F.fin r ∈ Daybreak.readTimes c2st.buf (0 + 0) c2acc.count →
        qm ≤ r ∧ r ≤ qM) ∧
      st'.fixes = c2st.fixes ++ [.fixedTiming 0 0]) ∧
    (Daybreak.fix_extreme_coordinates [] oneBuf8 []).buf = oneBuf8 :=
  ⟨c2_bounds_only_repair.1 [⟨0, some 0⟩] oneBuf8 0 c2sacc 0 ⟨0, some 0⟩
      rfl rfl rfl rfl rfl (by decide) (by decide) (by decide) (by decide),
   c2_bounds_only_repair.2.1 [⟨0, some 0⟩] 0 0 0 c2st ⟨some 0⟩ c2acc 0 ⟨0, some 0⟩
      (F.fin 9) (F.fin 1) rfl rfl rfl rfl (by decide) rfl rfl (by decide) (by decide),
   c2_bounds_only_repair.2.2 [] oneBuf8 []⟩

/-- C9: for every spatial float accessor whose stored bounds are implausible
and whose recomputed per-component min/max from the raw data are themselves
extreme (NaN, infinite, or of magnitude above 10000), the repair attempts no
synthesis: the accessor is returned unchanged (bounds untouched), the
accessor is recorded as an unresolved issue, no fix is recorded, and the
spatial pass leaves the binary buffer unchanged. -/
theorem c9_spatial_corrupt_untouched
    (bvs : List Daybreak.DBV) (b : Buf) (i : ℕ) (a : Daybreak.DAcc) (bvi : ℕ)
    (bv : Daybreak.DBV)
    (h1 : a.componentType = Daybreak.FLOAT)
    (h2 : a.bufferView = some bvi)
    (h3 : bvs.get? bvi = some bv)
    (hm1 : (a.min.getD []).isEmpty = false)
    (hm2 : (a.max.getD []).isEmpty = false)
    (h6 : ((a.min.getD []) ++ (a.max.getD [])).any extremeVal = true)
    (h9 : ((Daybreak.colMins (Daybreak.spatialCols b (bv.byteOffset + a.byteOffset)
        a.count (Daybreak.type_sizes a.type))) ++
      (Daybreak.colMaxs (Daybreak.spatialCols b (bv.byteOffset + a.byteOffset)
        a.count (Daybreak.type_sizes a.type)))).any extremeVal = true) :
    Daybreak.extremeStep bvs b i a = (a, none, some (.extremeAccessor i)) ∧
    ∀ accs : List Daybreak.DAcc, (Daybreak.fix_extreme_coordinates bvs b accs).buf = b := by
  constructor
  · simp only [Daybreak.extremeStep, h1, h2, h3, hm1, hm2, h6, h9, ne_eq,
      not_true_eq_false, if_false, Bool.false_eq_true, Bool.or_self, if_true]
  · exact fun accs => fix_extreme_coordinates_buf bvs b accs

/-- Witness for C9 at a concrete accessor: implausible stored bounds over an
all-NaN buffer. -/
theorem c9_spatial_corrupt_untouched_witness :
    Daybreak.extremeStep [⟨0, some 0⟩] nanBuf8 0 c9acc = (c9acc, none, some (.extremeAccessor 0)) ∧
    ∀ accs : List Daybreak.DAcc,
      (Daybreak.fix_extreme_coordinates [⟨0, some 0⟩] nanBuf8 accs).buf = nanBuf8 :=
  c9_spatial_corrupt_untouched [⟨0, some 0⟩] nanBuf8 0 c9acc 0 ⟨0, some 0⟩
    rfl rfl rfl rfl rfl (by decide) (by decide)

/-! ## Helper lemmas for `write_accessor_data` (C8) -/

theorem writeInner_size (ct cs : ℕ) (values : List F) (pos : ℕ) :
    ∀ (jrem j vidx : ℕ) (b : Buf),
      (AnimTiming.writeInner ct cs values pos jrem j vidx b).2.1.size = b.size := by
  intro jrem
  induction jrem with
  | zero => intro j vidx b; rfl
  | succ jrem ih =>
    intro j vidx b
    rw [AnimTiming.writeInner]
    by_cases hv : values.length ≤ vidx
    · rw [if_pos hv]
    · rw [if_neg hv]
      by_cases hb : b.size < pos + j * cs + cs
      · rw [if_pos hb]
      · rw [if_neg hb]
        rw [ih]
        rfl

theorem writeOuter_size (ct cs ts stride totalOff : ℕ) (values : List F) :
    ∀ (irem i vidx : ℕ) (b : Buf),
      (AnimTiming.writeOuter ct cs ts stride totalOff values irem i vidx b).2.1.size = b.size := by
  intro irem
  induction irem with
  | zero => intro i vidx b; rfl
  | succ irem ih =>
    intro i vidx b
    rw [AnimTiming.writeOuter]
    by_cases hv : values.length ≤ vidx
    · rw [if_pos hv]
    · rw [if_neg hv]
      cases hw : AnimTiming.writeInner ct cs values (totalOff + i * stride) ts 0 vidx b with
      | mk ok rest =>
        cases ok with
        | false =>
          have := writeInner_size ct cs values (totalOff + i * stride) ts 0 vidx b
          rw [hw] at this
          simpa using this
        | true =>
          have h1 := writeInner_size ct cs values (totalOff + i * stride) ts 0 vidx b
          rw [hw] at h1
          rw [ih]
          simpa using h1

theorem writeInner_false (ct cs : ℕ) (values : List F) (pos : ℕ) :
    ∀ (jrem j vidx : ℕ) (b : Buf),
      vidx + jrem ≤ values.length →
      (∃ dd, dd < jrem ∧ b.size < pos + (j + dd) * cs + cs) →
      (AnimTiming.writeInner ct cs values pos jrem j vidx b).1 = false := by
  intro jrem
  induction jrem with
  | zero =>
    intro j vidx b _ hoob
    obtain ⟨dd, hdd, _⟩ := hoob
    omega
  | succ jrem ih =>
    intro j vidx b hval hoob
    rw [AnimTiming.writeInner]
    have hv : ¬ values.length ≤ vidx := by omega
    rw [if_neg hv]
    by_cases hb : b.size < pos + j * cs + cs
    · rw [if_pos hb]
    · rw [if_neg hb]
      obtain ⟨dd, hdd, hglt⟩ := hoob
      cases dd with
      | zero =>
        simp only [Nat.add_zero] at hglt
        omega
      | succ dd' =>
        apply ih (j + 1) (vidx + 1) _ (by omega)
        refine ⟨dd', by omega, ?_⟩
        show b.size < pos + (j + 1 + dd') * cs + cs
        have harith : j + 1 + dd' = j + (dd' + 1) := by omega
        rw [harith]
        exact hglt

theorem writeInner_true (ct cs : ℕ) (values : List F) (pos : ℕ) :
    ∀ (jrem j vidx : ℕ) (b : Buf),
      vidx + jrem ≤ values.length →
      (∀ dd, dd < jrem → pos + (j + dd) * cs + cs ≤ b.size) →
      ∃ b', AnimTiming.writeInner ct cs values pos jrem j vidx b = (true, b', vidx + jrem) ∧
        b'.size = b.size := by
  intro jrem
  induction jrem with
  | zero => intro j vidx b _ _; exact ⟨b, rfl, rfl⟩
  | succ jrem ih =>
    intro j vidx b hval hok
    rw [AnimTiming.writeInner]
    have hv : ¬ values.length ≤ vidx := by omega
    rw [if_neg hv]
    have hb : ¬ b.size < pos + j * cs + cs := by
      have h0 := hok 0 (by omega)
      simp only [Nat.add_zero] at h0
      omega
    rw [if_neg hb]
    have hok' : ∀ dd, dd < jrem →
        pos + (j + 1 + dd) * cs + cs ≤
          (bufWrite b ct (pos + j * cs) (values.getD vidx (F.fin 0))).size := by
      intro dd hdd
      show pos + (j + 1 + dd) * cs + cs ≤ b.size
      have harith : j + 1 + dd = j + (dd + 1) := by omega
      rw [harith]
      exact hok (dd + 1) (by omega)
    obtain ⟨b', hb', hsz⟩ := ih (j + 1) (vidx + 1)
      (bufWrite b ct (pos + j * cs) (values.getD vidx (F.fin 0))) (by omega) hok'
    refine ⟨b', ?_, by rw [hsz]; rfl⟩
    rw [hb']
    have harith2 : vidx + 1 + jrem = vidx + (jrem + 1) := by omega
    rw [harith2]

theorem writeOuter_false (ct cs ts stride totalOff : ℕ) (values : List F) :
    ∀ (irem i vidx : ℕ) (b : Buf),
      vidx + irem * ts ≤ values.length →
      (∃ e dd, e < irem ∧ dd < ts ∧
        b.size < totalOff + (i + e) * stride + dd * cs + cs) →
      (AnimTiming.writeOuter ct cs ts stride totalOff values irem i vidx b).1 = false := by
  intro irem
  induction irem with
  | zero =>
    intro i vidx b _ hoob
    obtain ⟨e, _, he, _⟩ := hoob
    omega
  | succ irem ih =>
    intro i vidx b hval hoob
    obtain ⟨e, dd, he, hdd, hglt⟩ := hoob
    rw [AnimTiming.writeOuter]
    have hts : 1 ≤ ts := by omega
    have hv : ¬ values.length ≤ vidx := by
      have : ts ≤ (irem + 1) * ts := by
        calc ts = 1 * ts := by omega
        _ ≤ (irem + 1) * ts := Nat.mul_le_mul_right ts (by omega)
      omega
    rw [if_neg hv]
    cases e with
    | zero =>
      have hf := writeInner_false ct cs values (totalOff + i * stride) ts 0 vidx b
        (by
          have : ts ≤ (irem + 1) * ts := by
            calc ts = 1 * ts := by omega
            _ ≤ (irem + 1) * ts := Nat.mul_le_mul_right ts (by omega)
          omega)
        ⟨dd, hdd, by simpa using hglt⟩
      cases hw : AnimTiming.writeInner ct cs values (totalOff + i * stride) ts 0 vidx b with
      | mk ok rest =>
        rw [hw] at hf
        simp only at hf
        subst hf
        rfl
    | succ e' =>
      by_cases hcur : ∃ dd0, dd0 < ts ∧ b.size < totalOff + i * stride + dd0 * cs + cs
      · obtain ⟨dd0, hdd0, hglt0⟩ := hcur
        have hf := writeInner_false ct cs values (totalOff + i * stride) ts 0 vidx b
          (by
            have : ts ≤ (irem + 1) * ts := by
              calc ts = 1 * ts := by omega
              _ ≤ (irem + 1) * ts := Nat.mul_le_mul_right ts (by omega)
            omega)
          ⟨dd0, hdd0, by simpa using hglt0⟩
        cases hw : AnimTiming.writeInner ct cs values (totalOff + i * stride) ts 0 vidx b with
        | mk ok rest =>
          rw [hw] at hf
          simp only at hf
          subst hf
          rfl
      · push_neg at hcur
        obtain ⟨b', hb', hsz⟩ := writeInner_true ct cs values (totalOff + i * stride) ts 0 vidx b
          (by
            have : ts ≤ (irem + 1) * ts := by
              calc ts = 1 * ts := by omega
              _ ≤ (irem + 1) * ts := Nat.mul_le_mul_right ts (by omega)
            omega)
          (fun dd0 hdd0 => by simpa using hcur dd0 hdd0)
        rw [hb']
        apply ih (i + 1) (vidx + ts) b'
        · have : (irem + 1) * ts = ts + irem * ts := by ring
          omega
        · refine ⟨e', dd, by omega, hdd, ?_⟩
          rw [hsz]
          have harith : i + 1 + e' = i + (e' + 1) := by omega
          rw [harith]
          exact hglt

/-- C8: for every accessor and value sequence covering the accessor's full
layout, `write_accessor_data` fails (returns `False`) when writing any
component would exceed the buffer length, and it never grows the buffer:
the buffer it leaves behind after the failed write has exactly the length it
had before the call. -/
theorem c8_write_out_of_bounds
    (doc : AnimTiming.Doc8) (b : Buf) (accIdx : ℕ) (values : List F)
    (acc : AnimTiming.A8) (bvi : ℕ) (bv : AnimTiming.BV8) (cs : ℕ)
    (hacc : doc.accessors.get? accIdx = some acc)
    (hbv : acc.bufferView = some bvi)
    (hbvget : doc.bufferViews.get? bvi = some bv)
    (hct : AnimTiming.COMPONENT_TYPES acc.componentType = some cs)
    (hval : acc.count * AnimTiming.TYPE_SIZES acc.type ≤ values.length)
    (hoob : ∃ e dd, e < acc.count ∧ dd < AnimTiming.TYPE_SIZES acc.type ∧
      b.size < bv.byteOffset + acc.byteOffset +
        e * (bv.byteStride.getD (cs * AnimTiming.TYPE_SIZES acc.type)) + dd * cs + cs) :
    ∃ b', AnimTiming.write_accessor_data doc b accIdx values = some (false, b') ∧
      b'.size = b.size := by
  have hfalse := writeOuter_false acc.componentType cs (AnimTiming.TYPE_SIZES acc.type)
    (bv.byteStride.getD (cs * AnimTiming.TYPE_SIZES acc.type))
    (bv.byteOffset + acc.byteOffset) values acc.count 0 0 b (by omega)
    (by
      obtain ⟨e, dd, he, hdd, hglt⟩ := hoob
      exact ⟨e, dd, he, hdd, by simpa using hglt⟩)
  have hsize := writeOuter_size acc.componentType cs (AnimTiming.TYPE_SIZES acc.type)
    (bv.byteStride.getD (cs * AnimTiming.TYPE_SIZES acc.type))
    (bv.byteOffset + acc.byteOffset) values acc.count 0 0 b
  refine ⟨(AnimTiming.writeOuter acc.componentType cs (AnimTiming.TYPE_SIZES acc.type)
    (bv.byteStride.getD (cs * AnimTiming.TYPE_SIZES acc.type))
    (bv.byteOffset + acc.byteOffset) values acc.count 0 0 b).2.1, ?_, hsize⟩
  simp only [AnimTiming.write_accessor_data, hacc, hbv, hbvget, hct]
  cases hw : AnimTiming.writeOuter acc.componentType cs (AnimTiming.TYPE_SIZES acc.type)
      (bv.byteStride.getD (cs * AnimTiming.TYPE_SIZES acc.type))
      (bv.byteOffset + acc.byteOffset) values acc.count 0 0 b with
  | mk ok rest =>
    rw [hw] at hfalse
    simp only at hfalse
    subst hfalse
    rfl

/-- Witness for C8: a two-float scalar accessor over a four-byte buffer —
the second component write would exceed the buffer. -/
theorem c8_write_out_of_bounds_witness :
    ∃ b', AnimTiming.write_accessor_data c8doc oneBuf4 0 [F.fin 1, F.fin 2] = some (false, b') ∧
      b'.size = oneBuf4.size :=
  c8_write_out_of_bounds c8doc oneBuf4 0 [F.fin 1, F.fin 2]
    ⟨some 0, 0, 5126, "SCALAR", 2⟩ 0 ⟨0, none⟩ 4
    rfl rfl rfl rfl (by decide) ⟨1, 0, by decide, by decide, by decide⟩

/-- Counterexample to C3 as stated: on the cyclic node list
`[{children:[2]}, {}, {children:[0]}]` the node-order pass still triggers a
reorder, yet the repaired node list retains the edge from index 2 to index 1
— a parent→child edge whose parent index is NOT less than its child index.
The unqualified post-condition "parent index < child index, always" is
therefore false on the code. -/
theorem c3_counterexample :
    BoneOrder.needs_reorder_nodes c3doc.nodes = true ∧
    BoneOrder.badEdges (BoneOrder.fix_node_hierarchy c3doc).nodes = [(2, 1)] := by decide

/-- Counterexample to C10 as stated: with the single self-looping node and
the duplicated joint list `[0, 0]`, reordering is triggered, yet the
replacement joint list is `[0, 0]` again — the duplicate is emitted twice
(the unvisited-append loop does not deduplicate), the output is NOT strictly
shorter, and it IS a permutation of the duplicated input. -/
theorem c10_counterexample :
    BoneOrder.skin_needs_reorder loopNodes [0, 0] = true ∧
    BoneOrder.topological_sort_joints [0, 0] loopNodes = [0, 0] ∧
    ¬ (BoneOrder.topological_sort_joints [0, 0] loopNodes).length < ([0, 0] : List ℕ).length ∧
    (BoneOrder.topological_sort_joints [0, 0] loopNodes).Perm [0, 0] := by decide

/-! ## The DFS lemma suite

General lemmas about `BoneOrder.dfsGo`/`BoneOrder.dfsForest` over an
arbitrary child function `g` whose edges stay inside a finite universe `V`
of indices.  For the node pass `V` is `range n`; for the joint pass it is
the joint set of a skin. -/

theorem grows_trans {l1 l2 l3 : List ℕ} (h1 : BoneOrder.Grows l1 l2)
    (h2 : BoneOrder.Grows l2 l3) : BoneOrder.Grows l1 l3 := by
  obtain ⟨t1, rfl⟩ := h1
  obtain ⟨t2, rfl⟩ := h2
  exact ⟨t1 ++ t2, by rw [List.append_assoc]⟩

theorem grows_mem {l1 l2 : List ℕ} (h : BoneOrder.Grows l1 l2) {x : ℕ} (hx : x ∈ l1) :
    x ∈ l2 := by
  obtain ⟨t, rfl⟩ := h
  exact List.mem_append_left t hx

theorem grows_indexOf {l1 l2 : List ℕ} (h : BoneOrder.Grows l1 l2) {x : ℕ} (hx : x ∈ l1) :
    l2.indexOf x = l1.indexOf x := by
  obtain ⟨t, rfl⟩ := h
  exact List.indexOf_append_of_mem hx

theorem grows_length {l1 l2 : List ℕ} (h : BoneOrder.Grows l1 l2) :
    l1.length ≤ l2.length := by
  obtain ⟨t, rfl⟩ := h
  simp

theorem dfsGo_grows (g : ℕ → List ℕ) :
    ∀ (f i : ℕ) (ord : List ℕ), BoneOrder.Grows ord (BoneOrder.dfsGo g f i ord) := by
  intro f
  induction f with
  | zero => exact fun i ord => ⟨[], by simp [BoneOrder.dfsGo]⟩
  | succ f ih =>
    intro i ord
    rw [BoneOrder.dfsGo]
    by_cases hmem : i ∈ ord
    · rw [if_pos hmem]
      exact ⟨[], by simp⟩
    · rw [if_neg hmem]
      have hfold : ∀ (cs : List ℕ) (s : List ℕ),
          BoneOrder.Grows s (cs.foldl (fun o c => BoneOrder.dfsGo g f c o) s) := by
        intro cs
        induction cs with
        | nil => exact fun s => ⟨[], by simp⟩
        | cons c cs ihc =>
          intro s
          rw [List.foldl_cons]
          exact grows_trans (ih c s) (ihc (BoneOrder.dfsGo g f c s))
      exact grows_trans ⟨[i], rfl⟩ (hfold (g i) (ord ++ [i]))

theorem dfsGo_nodup (g : ℕ → List ℕ) :
    ∀ (f i : ℕ) (ord : List ℕ), ord.Nodup → (BoneOrder.dfsGo g f i ord).Nodup := by
  intro f
  induction f with
  | zero => intro i ord h; exact h
  | succ f ih =>
    intro i ord h
    rw [BoneOrder.dfsGo]
    by_cases hmem : i ∈ ord
    · rw [if_pos hmem]; exact h
    · rw [if_neg hmem]
      have hstart : (ord ++ [i]).Nodup := by
        rw [List.nodup_append]
        exact ⟨h, List.nodup_singleton i, by simpa using hmem⟩
      have hfold : ∀ (cs : List ℕ) (s : List ℕ), s.Nodup →
          (cs.foldl (fun o c => BoneOrder.dfsGo g f c o) s).Nodup := by
        intro cs
        induction cs with
        | nil => exact fun s hs => hs
        | cons c cs ihc =>
          intro s hs
          rw [List.foldl_cons]
          exact ihc _ (ih c s hs)
      exact hfold (g i) (ord ++ [i]) hstart

theorem dfsGo_subsetV (g : ℕ → List ℕ) (V : Finset ℕ)
    (HgV : ∀ p c, c ∈ g p → p ∈ V ∧ c ∈ V) :
    ∀ (f i : ℕ) (ord : List ℕ), (∀ x ∈ ord, x ∈ V) → i ∈ V →
      ∀ x ∈ BoneOrder.dfsGo g f i ord, x ∈ V := by
  intro f
  induction f with
  | zero => intro i ord hs _; exact hs
  | succ f ih =>
    intro i ord hs hi
    rw [BoneOrder.dfsGo]
    by_cases hmem : i ∈ ord
    · rw [if_pos hmem]; exact hs
    · rw [if_neg hmem]
      have hstart : ∀ x ∈ ord ++ [i], x ∈ V := by
        intro x hx
        rcases List.mem_append.mp hx with hx | hx
        · exact hs x hx
        · rw [List.mem_singleton.mp hx]; exact hi
      have hfold : ∀ (cs : List ℕ) (s : List ℕ), (∀ c ∈ cs, c ∈ V) → (∀ x ∈ s, x ∈ V) →
          ∀ x ∈ cs.foldl (fun o c => BoneOrder.dfsGo g f c o) s, x ∈ V := by
        intro cs
        induction cs with
        | nil => exact fun s _ hs2 => hs2
        | cons c cs ihc =>
          intro s hcs hs2
          rw [List.foldl_cons]
          exact ihc _ (fun c' hc' => hcs c' (List.mem_cons_of_mem _ hc'))
            (ih c s hs2 (hcs c (List.mem_cons_self _ _)))
      exact hfold (g i) (ord ++ [i]) (fun c hc => (HgV i c hc).2) hstart

theorem dfsGo_self_mem (g : ℕ → List ℕ) (f i : ℕ) (ord : List ℕ) (hf : 1 ≤ f) :
    i ∈ BoneOrder.dfsGo g f i ord := by
  obtain ⟨f', rfl⟩ : ∃ f', f = f' + 1 := ⟨f - 1, by omega⟩
  rw [BoneOrder.dfsGo]
  by_cases hmem : i ∈ ord
  · rw [if_pos hmem]; exact hmem
  · rw [if_neg hmem]
    have hgrow : ∀ (cs : List ℕ) (s : List ℕ),
        BoneOrder.Grows s (cs.foldl (fun o c => BoneOrder.dfsGo g f' c o) s) := by
      intro cs
      induction cs with
      | nil => exact fun s => ⟨[], by simp⟩
      | cons c cs ihc =>
        intro s
        rw [List.foldl_cons]
        exact grows_trans (dfsGo_grows g f' c s) (ihc _)
    exact grows_mem (hgrow (g i) (ord ++ [i])) (by simp)

theorem nodup_length_le_card (V : Finset ℕ) (l : List ℕ) (h : l.Nodup)
    (hs : ∀ x ∈ l, x ∈ V) : l.length ≤ V.card := by
  calc l.length = l.toFinset.card := (List.toFinset_card_of_nodup h).symm
  _ ≤ V.card := Finset.card_le_card (fun x hx => hs x (List.mem_toFinset.mp hx))

theorem dfsGo_closed (g : ℕ → List ℕ) (V : Finset ℕ)
    (HgV : ∀ p c, c ∈ g p → p ∈ V ∧ c ∈ V) :
    ∀ (f i : ℕ) (ord : List ℕ), ord.Nodup → (∀ x ∈ ord, x ∈ V) → i ∈ V →
      V.card + 2 ≤ f + ord.length →
      ∀ p ∈ BoneOrder.dfsGo g f i ord, p ∉ ord →
        ∀ c ∈ g p, c ∈ BoneOrder.dfsGo g f i ord := by
  intro f
  induction f with
  | zero =>
    intro i ord hnd hs _ hbud
    have hlen := nodup_length_le_card V ord hnd hs
    exact absurd hbud (by omega)
  | succ f ih =>
    intro i ord hnd hs hi hbud
    rw [BoneOrder.dfsGo]
    by_cases hmem : i ∈ ord
    · rw [if_pos hmem]
      intro p hp hpord
      exact absurd hp hpord
    · rw [if_neg hmem]
      have hnd0 : (ord ++ [i]).Nodup := by
        rw [List.nodup_append]
        exact ⟨hnd, List.nodup_singleton i, by simpa using hmem⟩
      have hs0 : ∀ x ∈ ord ++ [i], x ∈ V := by
        intro x hx
        rcases List.mem_append.mp hx with hx | hx
        · exact hs x hx
        · rw [List.mem_singleton.mp hx]; exact hi
      have hbud0 : V.card + 2 ≤ f + (ord ++ [i]).length := by
        rw [List.length_append, List.length_singleton]
        omega
      have FOLD : ∀ (cs : List ℕ) (s : List ℕ),
          s.Nodup → (∀ x ∈ s, x ∈ V) → (∀ c ∈ cs, c ∈ V) →
          V.card + 2 ≤ f + s.length →
          (∀ p ∈ s, p ∉ ord → ∀ c ∈ g p, c ∈ s ∨ (p = i ∧ c ∈ cs)) →
          ∀ p ∈ cs.foldl (fun o c => BoneOrder.dfsGo g f c o) s, p ∉ ord →
            ∀ c ∈ g p, c ∈ cs.foldl (fun o c => BoneOrder.dfsGo g f c o) s := by
        intro cs
        induction cs with
        | nil =>
          intro s _ _ _ _ hinv p hp hpord c hc
          rcases hinv p hp hpord c hc with h | h
          · exact h
          · exact absurd h.2 (List.not_mem_nil c)
        | cons c0 cs ihc =>
          intro s hnd2 hs2 hcsV hbud2 hinv
          rw [List.foldl_cons]
          have hc0V : c0 ∈ V := hcsV c0 (List.mem_cons_self _ _)
          have hnd3 := dfsGo_nodup g f c0 s hnd2
          have hs3 := dfsGo_subsetV g V HgV f c0 s hs2 hc0V
          have hgrow := dfsGo_grows g f c0 s
          have hf1 : 1 ≤ f := by
            have := nodup_length_le_card V s hnd2 hs2
            omega
          have hc0mem : c0 ∈ BoneOrder.dfsGo g f c0 s := dfsGo_self_mem g f c0 s hf1
          have hclosed1 := ih c0 s hnd2 hs2 hc0V hbud2
          have hbud3 : V.card + 2 ≤ f + (BoneOrder.dfsGo g f c0 s).length := by
            have := grows_length hgrow
            omega
          apply ihc (BoneOrder.dfsGo g f c0 s) hnd3 hs3
            (fun c' hc' => hcsV c' (List.mem_cons_of_mem _ hc')) hbud3
          intro p hp hpord c hc
          by_cases hps : p ∈ s
          · rcases hinv p hps hpord c hc with h | h
            · exact Or.inl (grows_mem hgrow h)
            · rcases List.mem_cons.mp h.2 with h2 | h2
              · exact Or.inl (h2 ▸ hc0mem)
              · exact Or.inr ⟨h.1, h2⟩
          · exact Or.inl (hclosed1 p hp hps c hc)
      apply FOLD (g i) (ord ++ [i]) hnd0 hs0 (fun c hc => (HgV i c hc).2) hbud0
      intro p hp hpord c hc
      rcases List.mem_append.mp hp with hp | hp
      · exact absurd hp hpord
      · exact Or.inr ⟨List.mem_singleton.mp hp, (List.mem_singleton.mp hp) ▸ hc⟩

theorem dfsGo_PO (g : ℕ → List ℕ)
    (Huniq : ∀ p q c, c ∈ g p → c ∈ g q → p = q) :
    ∀ (f i : ℕ) (ord : List ℕ), ord.Nodup →
      (∀ c ∈ ord, ∀ p, c ∈ g p → p ∈ ord ∧ ord.indexOf p < ord.indexOf c) →
      (∀ p, i ∈ g p → p ∈ ord) →
      ∀ c ∈ BoneOrder.dfsGo g f i ord, ∀ p, c ∈ g p →
        p ∈ BoneOrder.dfsGo g f i ord ∧
        (BoneOrder.dfsGo g f i ord).indexOf p < (BoneOrder.dfsGo g f i ord).indexOf c := by
  intro f
  induction f with
  | zero => intro i ord _ hPO _; exact hPO
  | succ f ih =>
    intro i ord hnd hPO hpar
    rw [BoneOrder.dfsGo]
    by_cases hmem : i ∈ ord
    · rw [if_pos hmem]; exact hPO
    · rw [if_neg hmem]
      have hPO0 : ∀ c ∈ ord ++ [i], ∀ p, c ∈ g p →
          p ∈ ord ++ [i] ∧ (ord ++ [i]).indexOf p < (ord ++ [i]).indexOf c := by
        intro c hc p hcp
        rcases List.mem_append.mp hc with hc | hc
        · obtain ⟨hpmem, hidx⟩ := hPO c hc p hcp
          refine ⟨List.mem_append_left _ hpmem, ?_⟩
          rw [List.indexOf_append_of_mem hpmem, List.indexOf_append_of_mem hc]
          exact hidx
        · have hci : c = i := List.mem_singleton.mp hc
          subst hci
          have hpord : p ∈ ord := hpar p hcp
          refine ⟨List.mem_append_left _ hpord, ?_⟩
          rw [List.indexOf_append_of_mem hpord, List.indexOf_append_of_not_mem hmem,
            List.indexOf_cons_self]
          have := List.indexOf_lt_length.mpr hpord
          omega
      have hnd0 : (ord ++ [i]).Nodup := by
        rw [List.nodup_append]
        exact ⟨hnd, List.nodup_singleton i, by simpa using hmem⟩
      have himem0 : i ∈ ord ++ [i] := by simp
      have FOLD : ∀ (cs : List ℕ) (s : List ℕ), (∀ c' ∈ cs, c' ∈ g i) → s.Nodup →
          BoneOrder.Grows (ord ++ [i]) s →
          (∀ c ∈ s, ∀ p, c ∈ g p → p ∈ s ∧ s.indexOf p < s.indexOf c) →
          ∀ c ∈ cs.foldl (fun o c => BoneOrder.dfsGo g f c o) s, ∀ p, c ∈ g p →
            p ∈ cs.foldl (fun o c => BoneOrder.dfsGo g f c o) s ∧
            (cs.foldl (fun o c => BoneOrder.dfsGo g f c o) s).indexOf p <
              (cs.foldl (fun o c => BoneOrder.dfsGo g f c o) s).indexOf c := by
        intro cs
        induction cs with
        | nil => intro s _ _ _ hPOs; exact hPOs
        | cons c0 cs ihc =>
          intro s hcs hnd2 hgrow2 hPOs
          rw [List.foldl_cons]
          have hpar0 : ∀ p, c0 ∈ g p → p ∈ s := by
            intro p hp
            have hpi : p = i := Huniq p i c0 hp (hcs c0 (List.mem_cons_self _ _))
            exact hpi ▸ grows_mem hgrow2 himem0
          exact ihc (BoneOrder.dfsGo g f c0 s)
            (fun c' hc' => hcs c' (List.mem_cons_of_mem _ hc'))
            (dfsGo_nodup g f c0 s hnd2)
            (grows_trans hgrow2 (dfsGo_grows g f c0 s))
            (ih c0 s hnd2 hPOs hpar0)
      exact FOLD (g i) (ord ++ [i]) (fun c' hc' => hc') hnd0 ⟨[], by simp⟩ hPO0

theorem rootsFold_grows (g : ℕ → List ℕ) (fl : ℕ) :
    ∀ (roots s : List ℕ), BoneOrder.Grows s (roots.foldl (fun o r => BoneOrder.dfsGo g fl r o) s) := by
  intro roots
  induction roots with
  | nil => exact fun s => ⟨[], by simp⟩
  | cons r roots ih =>
    intro s
    rw [List.foldl_cons]
    exact grows_trans (dfsGo_grows g fl r s) (ih _)

theorem rootsFold_nodup (g : ℕ → List ℕ) (fl : ℕ) :
    ∀ (roots s : List ℕ), s.Nodup → (roots.foldl (fun o r => BoneOrder.dfsGo g fl r o) s).Nodup := by
  intro roots
  induction roots with
  | nil => exact fun s hs => hs
  | cons r roots ih =>
    intro s hs
    rw [List.foldl_cons]
    exact ih _ (dfsGo_nodup g fl r s hs)

theorem rootsFold_subsetV (g : ℕ → List ℕ) (V : Finset ℕ)
    (HgV : ∀ p c, c ∈ g p → p ∈ V ∧ c ∈ V) (fl : ℕ) :
    ∀ (roots s : List ℕ), (∀ r ∈ roots, r ∈ V) → (∀ x ∈ s, x ∈ V) →
      ∀ x ∈ roots.foldl (fun o r => BoneOrder.dfsGo g fl r o) s, x ∈ V := by
  intro roots
  induction roots with
  | nil => exact fun s _ hs => hs
  | cons r roots ih =>
    intro s hr hs
    rw [List.foldl_cons]
    exact ih _ (fun r' hr' => hr r' (List.mem_cons_of_mem _ hr'))
      (dfsGo_subsetV g V HgV fl r s hs (hr r (List.mem_cons_self _ _)))

theorem rootsFold_mem (g : ℕ → List ℕ) (fl : ℕ) (hf : 1 ≤ fl) :
    ∀ (roots s : List ℕ), ∀ r ∈ roots, r ∈ roots.foldl (fun o r => BoneOrder.dfsGo g fl r o) s := by
  intro roots
  induction roots with
  | nil => intro s r hr; exact absurd hr (List.not_mem_nil r)
  | cons r0 roots ih =>
    intro s r hr
    rw [List.foldl_cons]
    rcases List.mem_cons.mp hr with hr | hr
    · subst hr
      exact grows_mem (rootsFold_grows g fl roots _) (dfsGo_self_mem g fl r s hf)
    · exact ih _ r hr

theorem rootsFold_closed (g : ℕ → List ℕ) (V : Finset ℕ)
    (HgV : ∀ p c, c ∈ g p → p ∈ V ∧ c ∈ V) (fl : ℕ) (hbud : V.card + 2 ≤ fl) :
    ∀ (roots s : List ℕ), s.Nodup → (∀ x ∈ s, x ∈ V) → (∀ r ∈ roots, r ∈ V) →
      (∀ p ∈ s, ∀ c ∈ g p, c ∈ s) →
      ∀ p ∈ roots.foldl (fun o r => BoneOrder.dfsGo g fl r o) s, ∀ c ∈ g p,
        c ∈ roots.foldl (fun o r => BoneOrder.dfsGo g fl r o) s := by
  intro roots
  induction roots with
  | nil => exact fun s _ _ _ hcl => hcl
  | cons r roots ih =>
    intro s hnd hs hr hcl
    rw [List.foldl_cons]
    have hrV : r ∈ V := hr r (List.mem_cons_self _ _)
    have hgrow := dfsGo_grows g fl r s
    have hclosed1 := dfsGo_closed g V HgV fl r s hnd hs hrV (by omega)
    apply ih (BoneOrder.dfsGo g fl r s) (dfsGo_nodup g fl r s hnd)
      (dfsGo_subsetV g V HgV fl r s hs hrV)
      (fun r' hr' => hr r' (List.mem_cons_of_mem _ hr'))
    intro p hp c hc
    by_cases hps : p ∈ s
    · exact grows_mem hgrow (hcl p hps c hc)
    · exact hclosed1 p hp hps c hc

theorem rootsFold_PO (g : ℕ → List ℕ)
    (Huniq : ∀ p q c, c ∈ g p → c ∈ g q → p = q) (fl : ℕ) :
    ∀ (roots s : List ℕ), (∀ r ∈ roots, ∀ p, r ∉ g p) → s.Nodup →
      (∀ c ∈ s, ∀ p, c ∈ g p → p ∈ s ∧ s.indexOf p < s.indexOf c) →
      ∀ c ∈ roots.foldl (fun o r => BoneOrder.dfsGo g fl r o) s, ∀ p, c ∈ g p →
        p ∈ roots.foldl (fun o r => BoneOrder.dfsGo g fl r o) s ∧
        (roots.foldl (fun o r => BoneOrder.dfsGo g fl r o) s).indexOf p <
          (roots.foldl (fun o r => BoneOrder.dfsGo g fl r o) s).indexOf c := by
  intro roots
  induction roots with
  | nil => exact fun s _ _ hPO => hPO
  | cons r roots ih =>
    intro s hroots hnd hPO
    rw [List.foldl_cons]
    exact ih _ (fun r' hr' => hroots r' (List.mem_cons_of_mem _ hr'))
      (dfsGo_nodup g fl r s hnd)
      (dfsGo_PO g Huniq fl r s hnd hPO
        (fun p hp => absurd hp (hroots r (List.mem_cons_self _ _) p)))

theorem dfsForest_complete (g : ℕ → List ℕ) (V : Finset ℕ)
    (HgV : ∀ p c, c ∈ g p → p ∈ V ∧ c ∈ V) (roots : List ℕ)
    (HRV : ∀ r ∈ roots, r ∈ V)
    (Hroot : ∀ c ∈ V, (∃ p, c ∈ g p) ∨ c ∈ roots)
    (rank : ℕ → ℕ) (Hrk : ∀ p c, c ∈ g p → rank p < rank c)
    (fl : ℕ) (hF : V.card + 2 ≤ fl) :
    ∀ c ∈ V, c ∈ BoneOrder.dfsForest g fl roots := by
  have hclosed : ∀ p ∈ BoneOrder.dfsForest g fl roots, ∀ c ∈ g p,
      c ∈ BoneOrder.dfsForest g fl roots := by
    apply rootsFold_closed g V HgV fl hF roots [] List.nodup_nil (by simp) HRV
    intro p hp
    exact absurd hp (List.not_mem_nil p)
  suffices H : ∀ n c, rank c < n → c ∈ V → c ∈ BoneOrder.dfsForest g fl roots by
    exact fun c hc => H (rank c + 1) c (by omega) hc
  intro n
  induction n with
  | zero => intro c h; omega
  | succ n ih =>
    intro c hrank hc
    rcases Hroot c hc with ⟨p, hp⟩ | hr
    · have hpV : p ∈ V := (HgV p c hp).1
      have hprank : rank p < n := by
        have := Hrk p c hp
        omega
      exact hclosed p (ih p hprank hpV) c hp
    · exact rootsFold_mem g fl (by omega) roots [] c hr

theorem dfsGo_fuel_stable (g : ℕ → List ℕ) (V : Finset ℕ)
    (HgV : ∀ p c, c ∈ g p → p ∈ V ∧ c ∈ V) :
    ∀ (f i : ℕ) (ord : List ℕ), ord.Nodup → (∀ x ∈ ord, x ∈ V) → i ∈ V →
      V.card + 2 ≤ f + ord.length →
      BoneOrder.dfsGo g (f + 1) i ord = BoneOrder.dfsGo g f i ord := by
  intro f
  induction f with
  | zero =>
    intro i ord hnd hs _ hbud
    have hlen := nodup_length_le_card V ord hnd hs
    exact absurd hbud (by omega)
  | succ f ih =>
    intro i ord hnd hs hi hbud
    rw [BoneOrder.dfsGo]
    conv_rhs => rw [BoneOrder.dfsGo]
    by_cases hmem : i ∈ ord
    · rw [if_pos hmem, if_pos hmem]
    · rw [if_neg hmem, if_neg hmem]
      have hnd0 : (ord ++ [i]).Nodup := by
        rw [List.nodup_append]
        exact ⟨hnd, List.nodup_singleton i, by simpa using hmem⟩
      have hs0 : ∀ x ∈ ord ++ [i], x ∈ V := by
        intro x hx
        rcases List.mem_append.mp hx with hx | hx
        · exact hs x hx
        · rw [List.mem_singleton.mp hx]; exact hi
      have hbud0 : V.card + 2 ≤ f + (ord ++ [i]).length := by
        rw [List.length_append, List.length_singleton]
        omega
      have FOLD : ∀ (cs s : List ℕ), s.Nodup → (∀ x ∈ s, x ∈ V) → (∀ c ∈ cs, c ∈ V) →
          V.card + 2 ≤ f + s.length →
          cs.foldl (fun o c => BoneOrder.dfsGo g (f + 1) c o) s =
            cs.foldl (fun o c => BoneOrder.dfsGo g f c o) s := by
        intro cs
        induction cs with
        | nil => intro s _ _ _ _; rfl
        | cons c0 cs ihc =>
          intro s hnd2 hs2 hcs hbud2
          rw [List.foldl_cons, List.foldl_cons]
          have hc0V : c0 ∈ V := hcs c0 (List.mem_cons_self _ _)
          rw [ih c0 s hnd2 hs2 hc0V hbud2]
          have hgrow := dfsGo_grows g f c0 s
          exact ihc (BoneOrder.dfsGo g f c0 s) (dfsGo_nodup g f c0 s hnd2)
            (dfsGo_subsetV g V HgV f c0 s hs2 hc0V)
            (fun c' hc' => hcs c' (List.mem_cons_of_mem _ hc'))
            (by have := grows_length hgrow; omega)
      exact FOLD (g i) (ord ++ [i]) hnd0 hs0 (fun c hc => (HgV i c hc).2) hbud0

theorem dfsGo_fuel_stable_add (g : ℕ → List ℕ) (V : Finset ℕ)
    (HgV : ∀ p c, c ∈ g p → p ∈ V ∧ c ∈ V)
    (f i : ℕ) (ord : List ℕ) (hnd : ord.Nodup) (hs : ∀ x ∈ ord, x ∈ V) (hi : i ∈ V)
    (hbud : V.card + 2 ≤ f + ord.length) :
    ∀ k, BoneOrder.dfsGo g (f + k) i ord = BoneOrder.dfsGo g f i ord := by
  intro k
  induction k with
  | zero => rfl
  | succ k ihk =>
    have : f + (k + 1) = (f + k) + 1 := by omega
    rw [this, dfsGo_fuel_stable g V HgV (f + k) i ord hnd hs hi (by omega), ihk]

theorem dfsForest_fuel_stable (g : ℕ → List ℕ) (V : Finset ℕ)
    (HgV : ∀ p c, c ∈ g p → p ∈ V ∧ c ∈ V)
    (fl : ℕ) (hF : V.card + 2 ≤ fl) (roots : List ℕ) (HRV : ∀ r ∈ roots, r ∈ V) (k : ℕ) :
    BoneOrder.dfsForest g (fl + k) roots = BoneOrder.dfsForest g fl roots := by
  have FOLD : ∀ (rs s : List ℕ), s.Nodup → (∀ x ∈ s, x ∈ V) → (∀ r ∈ rs, r ∈ V) →
      rs.foldl (fun o r => BoneOrder.dfsGo g (fl + k) r o) s =
        rs.foldl (fun o r => BoneOrder.dfsGo g fl r o) s := by
    intro rs
    induction rs with
    | nil => intro s _ _ _; rfl
    | cons r rs ihr =>
      intro s hnd hsub hr
      rw [List.foldl_cons, List.foldl_cons]
      have hrV : r ∈ V := hr r (List.mem_cons_self _ _)
      rw [dfsGo_fuel_stable_add g V HgV fl r s hnd hsub hrV (by omega) k]
      exact ihr (BoneOrder.dfsGo g fl r s) (dfsGo_nodup g fl r s hnd)
        (dfsGo_subsetV g V HgV fl r s hsub hrV)
        (fun r' hr' => hr r' (List.mem_cons_of_mem _ hr'))
  exact FOLD roots [] List.nodup_nil (by simp) HRV

/-! ## Specialization to the node-order pass -/

theorem childrenOf_parent_lt (nodes : List BoneOrder.GNode) (p c : ℕ)
    (hc : c ∈ BoneOrder.childrenOf nodes p) : p < nodes.length := by
  unfold BoneOrder.childrenOf at hc
  cases hget : nodes.get? p with
  | none =>
    rw [hget] at hc
    exact absurd hc (List.not_mem_nil c)
  | some nd =>
    by_contra hge
    rw [List.get?_eq_none.mpr (by omega)] at hget
    exact Option.noConfusion hget

theorem childrenOf_eq_children (nodes : List BoneOrder.GNode) (p : ℕ)
    (nd : BoneOrder.GNode) (h : nodes.get? p = some nd) :
    BoneOrder.childrenOf nodes p = nd.children := by
  unfold BoneOrder.childrenOf
  rw [h]
  rfl

theorem childrenInRange_spec (nodes : List BoneOrder.GNode)
    (h : BoneOrder.childrenInRange nodes = true) (p c : ℕ)
    (hc : c ∈ BoneOrder.childrenOf nodes p) : c < nodes.length := by
  unfold BoneOrder.childrenOf at hc
  cases hget : nodes.get? p with
  | none =>
    rw [hget] at hc
    exact absurd hc (List.not_mem_nil c)
  | some nd =>
    rw [hget] at hc
    have hnd : nd ∈ nodes := List.get?_mem hget
    have h1 := List.all_eq_true.mp h nd hnd
    have h2 := List.all_eq_true.mp h1 c hc
    exact of_decide_eq_true h2

theorem node_HgV (nodes : List BoneOrder.GNode)
    (h : BoneOrder.childrenInRange nodes = true) :
    ∀ p c, c ∈ BoneOrder.childrenOf nodes p →
      p ∈ Finset.range nodes.length ∧ c ∈ Finset.range nodes.length := by
  intro p c hc
  rw [Finset.mem_range, Finset.mem_range]
  exact ⟨childrenOf_parent_lt nodes p c hc, childrenInRange_spec nodes h p c hc⟩

theorem uniqueParentB_spec (nodes : List BoneOrder.GNode)
    (h : BoneOrder.uniqueParentB nodes = true) :
    ∀ p q c, c ∈ BoneOrder.childrenOf nodes p → c ∈ BoneOrder.childrenOf nodes q → p = q := by
  intro p q c hp hq
  have hpn : p < nodes.length := childrenOf_parent_lt nodes p c hp
  have hqn : q < nodes.length := childrenOf_parent_lt nodes q c hq
  have h1 := List.all_eq_true.mp h p (List.mem_range.mpr hpn)
  have h2 := List.all_eq_true.mp h1 q (List.mem_range.mpr hqn)
  rcases Bool.or_eq_true_iff.mp h2 with h3 | h3
  · exact of_decide_eq_true h3
  · have h4 := List.all_eq_true.mp h3 c hp
    rw [decide_eq_true_eq] at h4
    exact absurd (List.elem_eq_true_of_mem hq) (by simpa using h4)

theorem rankOkB_spec (nodes : List BoneOrder.GNode) (rank : ℕ → ℕ)
    (h : BoneOrder.rankOkB nodes rank = true) :
    ∀ p c, c ∈ BoneOrder.childrenOf nodes p → rank p < rank c := by
  intro p c hc
  have hpn : p < nodes.length := childrenOf_parent_lt nodes p c hc
  have h1 := List.all_eq_true.mp h p (List.mem_range.mpr hpn)
  have h2 := List.all_eq_true.mp h1 c hc
  exact of_decide_eq_true h2

theorem root_nodes_subset (nodes : List BoneOrder.GNode) :
    ∀ r ∈ BoneOrder.root_nodes nodes, r ∈ Finset.range nodes.length := by
  intro r hr
  unfold BoneOrder.root_nodes at hr
  rw [Finset.mem_range]
  exact List.mem_range.mp (List.mem_of_mem_filter hr)

theorem root_nodes_no_parent (nodes : List BoneOrder.GNode) :
    ∀ r ∈ BoneOrder.root_nodes nodes, ∀ p, r ∉ BoneOrder.childrenOf nodes p := by
  intro r hr p hmem
  unfold BoneOrder.root_nodes at hr
  have hfilter := List.of_mem_filter hr
  unfold BoneOrder.childrenOf at hmem
  cases hget : nodes.get? p with
  | none =>
    rw [hget] at hmem
    exact absurd hmem (List.not_mem_nil r)
  | some nd =>
    rw [hget] at hmem
    have hnd : nd ∈ nodes := List.get?_mem hget
    have hhas : BoneOrder.node_has_parent nodes r = true := by
      unfold BoneOrder.node_has_parent
      rw [List.any_eq_true]
      exact ⟨nd, hnd, List.elem_eq_true_of_mem hmem⟩
    simp [hhas] at hfilter

theorem node_Hroot (nodes : List BoneOrder.GNode) :
    ∀ c ∈ Finset.range nodes.length,
      (∃ p, c ∈ BoneOrder.childrenOf nodes p) ∨ c ∈ BoneOrder.root_nodes nodes := by
  intro c hc
  rw [Finset.mem_range] at hc
  by_cases hpar : BoneOrder.node_has_parent nodes c = true
  · left
    unfold BoneOrder.node_has_parent at hpar
    rw [List.any_eq_true] at hpar
    obtain ⟨nd, hnd, hcont⟩ := hpar
    obtain ⟨p, hp⟩ := List.mem_iff_get?.mp hnd
    refine ⟨p, ?_⟩
    rw [childrenOf_eq_children nodes p nd hp]
    exact List.mem_of_elem_eq_true hcont
  · right
    unfold BoneOrder.root_nodes
    rw [List.mem_filter]
    exact ⟨List.mem_range.mpr hc, by simpa using hpar⟩

theorem defaultFuel_budget (nodes : List BoneOrder.GNode) :
    (Finset.range nodes.length).card + 2 ≤ BoneOrder.defaultFuel nodes := by
  rw [Finset.card_range]
  unfold BoneOrder.defaultFuel
  omega

theorem node_vis_nodup (fl : ℕ) (nodes : List BoneOrder.GNode) :
    (BoneOrder.visitedNodesF fl nodes).Nodup :=
  rootsFold_nodup _ fl (BoneOrder.root_nodes nodes) [] List.nodup_nil

theorem node_vis_subset (nodes : List BoneOrder.GNode)
    (Hin : BoneOrder.childrenInRange nodes = true) (fl : ℕ) :
    ∀ x ∈ BoneOrder.visitedNodesF fl nodes, x < nodes.length := by
  intro x hx
  have := rootsFold_subsetV (BoneOrder.childrenOf nodes) (Finset.range nodes.length)
    (node_HgV nodes Hin) fl (BoneOrder.root_nodes nodes) []
    (root_nodes_subset nodes) (by simp) x hx
  exact Finset.mem_range.mp this

theorem node_vis_complete (nodes : List BoneOrder.GNode) (rank : ℕ → ℕ)
    (Hin : BoneOrder.childrenInRange nodes = true)
    (Hrk : BoneOrder.rankOkB nodes rank = true) :
    ∀ c, c < nodes.length → c ∈ BoneOrder.visitedNodesF (BoneOrder.defaultFuel nodes) nodes := by
  intro c hc
  exact dfsForest_complete (BoneOrder.childrenOf nodes) (Finset.range nodes.length)
    (node_HgV nodes Hin) (BoneOrder.root_nodes nodes) (root_nodes_subset nodes)
    (node_Hroot nodes) rank (rankOkB_spec nodes rank Hrk)
    (BoneOrder.defaultFuel nodes) (defaultFuel_budget nodes) c (Finset.mem_range.mpr hc)

theorem node_vis_PO (nodes : List BoneOrder.GNode)
    (Huq : BoneOrder.uniqueParentB nodes = true) (fl : ℕ) :
    ∀ c ∈ BoneOrder.visitedNodesF fl nodes, ∀ p, c ∈ BoneOrder.childrenOf nodes p →
      p ∈ BoneOrder.visitedNodesF fl nodes ∧
      (BoneOrder.visitedNodesF fl nodes).indexOf p <
        (BoneOrder.visitedNodesF fl nodes).indexOf c := by
  apply rootsFold_PO (BoneOrder.childrenOf nodes) (uniqueParentB_spec nodes Huq) fl
    (BoneOrder.root_nodes nodes) [] (root_nodes_no_parent nodes) List.nodup_nil
  intro c hc
  exact absurd hc (List.not_mem_nil c)

theorem node_unvis_nil (nodes : List BoneOrder.GNode) (rank : ℕ → ℕ)
    (Hin : BoneOrder.childrenInRange nodes = true)
    (Hrk : BoneOrder.rankOkB nodes rank = true) :
    BoneOrder.unvisitedNodesF (BoneOrder.defaultFuel nodes) nodes = [] := by
  unfold BoneOrder.unvisitedNodesF
  rw [List.filter_eq_nil]
  intro i hi
  have hc := node_vis_complete nodes rank Hin Hrk i (List.mem_range.mp hi)
  simp [hc]

theorem node_sorted_eq_vis (nodes : List BoneOrder.GNode) (rank : ℕ → ℕ)
    (Hin : BoneOrder.childrenInRange nodes = true)
    (Hrk : BoneOrder.rankOkB nodes rank = true) :
    BoneOrder.topological_sort_nodesF (BoneOrder.defaultFuel nodes) nodes =
      BoneOrder.visitedNodesF (BoneOrder.defaultFuel nodes) nodes := by
  unfold BoneOrder.topological_sort_nodesF
  rw [node_unvis_nil nodes rank Hin Hrk, List.append_nil]

theorem node_sorted_nodup (fl : ℕ) (nodes : List BoneOrder.GNode) :
    (BoneOrder.topological_sort_nodesF fl nodes).Nodup := by
  unfold BoneOrder.topological_sort_nodesF BoneOrder.unvisitedNodesF
  rw [List.nodup_append]
  refine ⟨node_vis_nodup fl nodes, List.Nodup.filter _ (List.nodup_range _), ?_⟩
  intro x hx hxf
  have := List.of_mem_filter hxf
  simp [hx] at this

theorem node_sorted_mem (fl : ℕ) (nodes : List BoneOrder.GNode)
    (Hin : BoneOrder.childrenInRange nodes = true) :
    ∀ x, x ∈ BoneOrder.topological_sort_nodesF fl nodes ↔ x < nodes.length := by
  intro x
  unfold BoneOrder.topological_sort_nodesF BoneOrder.unvisitedNodesF
  rw [List.mem_append]
  constructor
  · intro hx
    rcases hx with hx | hx
    · exact node_vis_subset nodes Hin fl x hx
    · exact List.mem_range.mp (List.mem_of_mem_filter hx)
  · intro hx
    by_cases hv : x ∈ BoneOrder.visitedNodesF fl nodes
    · exact Or.inl hv
    · right
      rw [List.mem_filter]
      exact ⟨List.mem_range.mpr hx, by simpa using hv⟩

theorem node_sorted_perm (fl : ℕ) (nodes : List BoneOrder.GNode)
    (Hin : BoneOrder.childrenInRange nodes = true) :
    (BoneOrder.topological_sort_nodesF fl nodes).Perm (List.range nodes.length) := by
  apply List.perm_of_nodup_nodup_toFinset_eq (node_sorted_nodup fl nodes) (List.nodup_range _)
  ext x
  rw [List.mem_toFinset, List.mem_toFinset, node_sorted_mem fl nodes Hin, List.mem_range]

theorem map_getD_range {α : Type _} (l : List α) (d0 : α) :
    (List.range l.length).map (fun i => l.getD i d0) = l := by
  induction l with
  | nil => rfl
  | cons a l ih =>
    rw [List.length_cons, List.range_succ_eq_map, List.map_cons, List.map_map]
    have hcomp : ((fun i => (a :: l).getD i d0) ∘ Nat.succ) = (fun i => l.getD i d0) := rfl
    rw [hcomp, ih]
    rfl

/-- C4: the node-order pass never drops a node — the output node list has
the same length as the input and its nodes (identified by payload, since the
pass rewrites children in place) are a permutation of the input nodes; the
sorted index list is the visited prefix followed by the unvisited indices,
and the unvisited indices are appended in their original (increasing)
relative order. -/
theorem c4_no_node_dropped (d : BoneOrder.BDoc)
    (Hin : BoneOrder.childrenInRange d.nodes = true) :
    (BoneOrder.fix_node_hierarchy d).nodes.length = d.nodes.length ∧
    ((BoneOrder.fix_node_hierarchy d).nodes.map BoneOrder.GNode.payload).Perm
      (d.nodes.map BoneOrder.GNode.payload) ∧
    BoneOrder.topological_sort_nodesF (BoneOrder.defaultFuel d.nodes) d.nodes =
      BoneOrder.visitedNodesF (BoneOrder.defaultFuel d.nodes) d.nodes ++
        BoneOrder.unvisitedNodesF (BoneOrder.defaultFuel d.nodes) d.nodes ∧
    List.Pairwise (· < ·) (BoneOrder.unvisitedNodesF (BoneOrder.defaultFuel d.nodes) d.nodes) := by
  have hperm := node_sorted_perm (BoneOrder.defaultFuel d.nodes) d.nodes Hin
  have hpair : List.Pairwise (· < ·)
      (BoneOrder.unvisitedNodesF (BoneOrder.defaultFuel d.nodes) d.nodes) := by
    unfold BoneOrder.unvisitedNodesF
    exact List.Pairwise.filter _ (List.pairwise_lt_range _)
  have hlen_sorted : (BoneOrder.topological_sort_nodesF (BoneOrder.defaultFuel d.nodes)
      d.nodes).length = d.nodes.length := by
    rw [hperm.length_eq, List.length_range]
  by_cases hre : BoneOrder.needs_reorder_nodes d.nodes = true
  · have hnodes : (BoneOrder.fix_node_hierarchy d).nodes =
        (BoneOrder.topological_sort_nodesF (BoneOrder.defaultFuel d.nodes) d.nodes).map
          (fun old => BoneOrder.remapNode
            (BoneOrder.index_mapping
              (BoneOrder.topological_sort_nodesF (BoneOrder.defaultFuel d.nodes) d.nodes))
            (BoneOrder.nodeAt d.nodes old)) := by
      unfold BoneOrder.fix_node_hierarchy BoneOrder.fix_node_hierarchyF
      rw [if_pos hre]
    refine ⟨?_, ?_, rfl, hpair⟩
    · rw [hnodes, List.length_map, hlen_sorted]
    · rw [hnodes, List.map_map]
      have hmap2 : (List.range d.nodes.length).map
          (fun old => (BoneOrder.nodeAt d.nodes old).payload) =
          d.nodes.map BoneOrder.GNode.payload := by
        have h1 : (fun old => (BoneOrder.nodeAt d.nodes old).payload) =
            (BoneOrder.GNode.payload ∘ fun i => d.nodes.getD i ⟨[], 0⟩) := rfl
        rw [h1, ← List.map_map, map_getD_range]
      have hcomp : ∀ x ∈ BoneOrder.topological_sort_nodesF (BoneOrder.defaultFuel d.nodes)
          d.nodes,
          (BoneOrder.GNode.payload ∘ (fun old => BoneOrder.remapNode
            (BoneOrder.index_mapping
              (BoneOrder.topological_sort_nodesF (BoneOrder.defaultFuel d.nodes) d.nodes))
            (BoneOrder.nodeAt d.nodes old))) x =
          (fun old => (BoneOrder.nodeAt d.nodes old).payload) x :=
        fun x _ => rfl
      rw [List.map_congr_left hcomp]
      exact (hperm.map _).trans (by rw [hmap2])
  · have hfix : BoneOrder.fix_node_hierarchy d = d := by
      unfold BoneOrder.fix_node_hierarchy BoneOrder.fix_node_hierarchyF
      rw [if_neg hre]
    rw [hfix]
    exact ⟨rfl, List.Perm.refl _, rfl, hpair⟩

/-- Witness for C4 at a concrete two-node forest serialized child-first. -/
theorem c4_no_node_dropped_witness :
    (BoneOrder.fix_node_hierarchy forestDoc).nodes.length = forestDoc.nodes.length ∧
    ((BoneOrder.fix_node_hierarchy forestDoc).nodes.map BoneOrder.GNode.payload).Perm
      (forestDoc.nodes.map BoneOrder.GNode.payload) ∧
    BoneOrder.topological_sort_nodesF (BoneOrder.defaultFuel forestDoc.nodes) forestDoc.nodes =
      BoneOrder.visitedNodesF (BoneOrder.defaultFuel forestDoc.nodes) forestDoc.nodes ++
        BoneOrder.unvisitedNodesF (BoneOrder.defaultFuel forestDoc.nodes) forestDoc.nodes ∧
    List.Pairwise (· < ·)
      (BoneOrder.unvisitedNodesF (BoneOrder.defaultFuel forestDoc.nodes) forestDoc.nodes) :=
  c4_no_node_dropped forestDoc (by decide)

theorem nodeAt_get? (nodes : List BoneOrder.GNode) (i : ℕ) (h : i < nodes.length) :
    nodes.get? i = some (BoneOrder.nodeAt nodes i) := by
  unfold BoneOrder.nodeAt
  rw [List.getD_eq_getElem?_getD, List.getElem?_eq_getElem h, Option.getD_some,
    List.get?_eq_getElem?, List.getElem?_eq_getElem h]

theorem needs_reorder_false_spec (nodes : List BoneOrder.GNode)
    (h : BoneOrder.needs_reorder_nodes nodes = false) :
    ∀ i nd, nodes.get? i = some nd → ∀ c ∈ nd.children, ¬ c < i := by
  intro i nd hget c hc
  unfold BoneOrder.needs_reorder_nodes at h
  have hmem : (i, nd) ∈ nodes.enum := List.mk_mem_enum_iff_get?.mpr hget
  have h1 := List.any_eq_false.mp h (i, nd) hmem
  have h1' : ((i, nd).2.children.any fun c => decide (c < (i, nd).1)) = false :=
    Bool.eq_false_iff.mpr h1
  have h2 := List.any_eq_false.mp h1' c hc
  simpa using h2

/-- C3 (amended): when the child graph of the node list is a forest — every
child reference in range, every node with at most one parent, and
acyclicity certified by a rank function that strictly increases along edges
— then after the node-order pass every parent→child edge of the repaired
node list satisfies parent index < child index, and every cross-reference
is rewritten through the single old→new index mapping (an already-ordered
document is returned unchanged). -/
theorem c3_amended_parent_before_child (d : BoneOrder.BDoc) (rank : ℕ → ℕ)
    (Hin : BoneOrder.childrenInRange d.nodes = true)
    (Huq : BoneOrder.uniqueParentB d.nodes = true)
    (Hrk : BoneOrder.rankOkB d.nodes rank = true) :
    (∀ pi nd, (BoneOrder.fix_node_hierarchy d).nodes.get? pi = some nd →
      ∀ c ∈ nd.children, pi < c) ∧
    (BoneOrder.needs_reorder_nodes d.nodes = false → BoneOrder.fix_node_hierarchy d = d) ∧
    (BoneOrder.needs_reorder_nodes d.nodes = true →
      BoneOrder.fix_node_hierarchy d =
        ⟨(BoneOrder.topological_sort_nodesF (BoneOrder.defaultFuel d.nodes) d.nodes).map
            (fun old => BoneOrder.remapNode
              (BoneOrder.index_mapping
                (BoneOrder.topological_sort_nodesF (BoneOrder.defaultFuel d.nodes) d.nodes))
              (BoneOrder.nodeAt d.nodes old)),
          d.scenes.map (fun sc =>
            ⟨sc.nodes.map (BoneOrder.index_mapping
              (BoneOrder.topological_sort_nodesF (BoneOrder.defaultFuel d.nodes) d.nodes))⟩),
          d.skins.map (fun sk =>
            ⟨sk.joints.map (BoneOrder.index_mapping
              (BoneOrder.topological_sort_nodesF (BoneOrder.defaultFuel d.nodes) d.nodes)),
             sk.skeleton.map (BoneOrder.index_mapping
              (BoneOrder.topological_sort_nodesF (BoneOrder.defaultFuel d.nodes) d.nodes))⟩),
          d.animations.map (fun an =>
            ⟨an.channels.map (fun ch =>
              ⟨ch.targetNode.map (BoneOrder.index_mapping
                (BoneOrder.topological_sort_nodesF (BoneOrder.defaultFuel d.nodes) d.nodes))⟩)⟩)⟩) := by
  refine ⟨?_, ?_, ?_⟩
  · intro pi nd hget c hc
    by_cases hre : BoneOrder.needs_reorder_nodes d.nodes = true
    · have hnodes : (BoneOrder.fix_node_hierarchy d).nodes =
          (BoneOrder.topological_sort_nodesF (BoneOrder.defaultFuel d.nodes) d.nodes).map
            (fun old => BoneOrder.remapNode
              (BoneOrder.index_mapping
                (BoneOrder.topological_sort_nodesF (BoneOrder.defaultFuel d.nodes) d.nodes))
              (BoneOrder.nodeAt d.nodes old)) := by
        unfold BoneOrder.fix_node_hierarchy BoneOrder.fix_node_hierarchyF
        rw [if_pos hre]
      rw [hnodes] at hget
      rw [List.get?_map] at hget
      cases hsg : (BoneOrder.topological_sort_nodesF (BoneOrder.defaultFuel d.nodes)
          d.nodes).get? pi with
      | none => rw [hsg] at hget; exact Option.noConfusion hget
      | some old =>
        rw [hsg] at hget
        have hnd : nd = BoneOrder.remapNode
            (BoneOrder.index_mapping
              (BoneOrder.topological_sort_nodesF (BoneOrder.defaultFuel d.nodes) d.nodes))
            (BoneOrder.nodeAt d.nodes old) := by
          injection hget with hget'
          exact hget'.symm
        subst hnd
        unfold BoneOrder.remapNode at hc
        simp only [List.mem_map] at hc
        obtain ⟨c0, hc0, rfl⟩ := hc
        have hsorted_eq := node_sorted_eq_vis d.nodes rank Hin Hrk
        have holdmem : old ∈ BoneOrder.topological_sort_nodesF (BoneOrder.defaultFuel d.nodes)
            d.nodes := List.get?_mem hsg
        have holdlt : old < d.nodes.length :=
          (node_sorted_mem (BoneOrder.defaultFuel d.nodes) d.nodes Hin old).mp holdmem
        have hedge : c0 ∈ BoneOrder.childrenOf d.nodes old := by
          rw [childrenOf_eq_children d.nodes old _ (nodeAt_get? d.nodes old holdlt)]
          exact hc0
        have hc0lt : c0 < d.nodes.length := childrenInRange_spec d.nodes Hin old c0 hedge
        have hc0vis : c0 ∈ BoneOrder.visitedNodesF (BoneOrder.defaultFuel d.nodes) d.nodes :=
          node_vis_complete d.nodes rank Hin Hrk c0 hc0lt
        have hPO := node_vis_PO d.nodes Huq (BoneOrder.defaultFuel d.nodes) c0 hc0vis old hedge
        have hpi_eq : pi = (BoneOrder.topological_sort_nodesF (BoneOrder.defaultFuel d.nodes)
            d.nodes).indexOf old := by
          obtain ⟨hlt, hgetel⟩ := List.get?_eq_some.mp hsg
          have heq : (BoneOrder.topological_sort_nodesF (BoneOrder.defaultFuel d.nodes)
              d.nodes)[pi] = old := hgetel
          rw [← heq,
            List.indexOf_getElem (node_sorted_nodup (BoneOrder.defaultFuel d.nodes) d.nodes) pi hlt]
        rw [hpi_eq]
        unfold BoneOrder.index_mapping
        rw [hsorted_eq]
        exact hPO.2
    · have hre' : BoneOrder.needs_reorder_nodes d.nodes = false := by
        simpa using hre
      have hfix : BoneOrder.fix_node_hierarchy d = d := by
        unfold BoneOrder.fix_node_hierarchy BoneOrder.fix_node_hierarchyF
        rw [if_neg hre]
      rw [hfix] at hget
      have hge := needs_reorder_false_spec d.nodes hre' pi nd hget c hc
      have hedge : c ∈ BoneOrder.childrenOf d.nodes pi := by
        rw [childrenOf_eq_children d.nodes pi nd hget]
        exact hc
      have hne : rank pi < rank c := rankOkB_spec d.nodes rank Hrk pi c hedge
      by_contra hlt
      have : c = pi := by omega
      subst this
      omega
  · intro hre
    unfold BoneOrder.fix_node_hierarchy BoneOrder.fix_node_hierarchyF
    rw [if_neg (by simp [hre])]
  · intro hre
    unfold BoneOrder.fix_node_hierarchy BoneOrder.fix_node_hierarchyF
    rw [if_pos hre]

/-- Witness for C3 (amended) at a concrete two-node forest serialized
child-first, with an explicit rank function certifying acyclicity. -/
theorem c3_amended_parent_before_child_witness :
    (∀ pi nd, (BoneOrder.fix_node_hierarchy forestDoc).nodes.get? pi = some nd →
      ∀ c ∈ nd.children, pi < c) ∧
    (BoneOrder.needs_reorder_nodes forestDoc.nodes = false →
      BoneOrder.fix_node_hierarchy forestDoc = forestDoc) ∧
    (BoneOrder.needs_reorder_nodes forestDoc.nodes = true →
      BoneOrder.fix_node_hierarchy forestDoc =
        ⟨(BoneOrder.topological_sort_nodesF (BoneOrder.defaultFuel forestDoc.nodes)
            forestDoc.nodes).map
            (fun old => BoneOrder.remapNode
              (BoneOrder.index_mapping
                (BoneOrder.topological_sort_nodesF (BoneOrder.defaultFuel forestDoc.nodes)
                  forestDoc.nodes))
              (BoneOrder.nodeAt forestDoc.nodes old)),
          forestDoc.scenes.map (fun sc =>
            ⟨sc.nodes.map (BoneOrder.index_mapping
              (BoneOrder.topological_sort_nodesF (BoneOrder.defaultFuel forestDoc.nodes)
                forestDoc.nodes))⟩),
          forestDoc.skins.map (fun sk =>
            ⟨sk.joints.map (BoneOrder.index_mapping
              (BoneOrder.topological_sort_nodesF (BoneOrder.defaultFuel forestDoc.nodes)
                forestDoc.nodes)),
             sk.skeleton.map (BoneOrder.index_mapping
              (BoneOrder.topological_sort_nodesF (BoneOrder.defaultFuel forestDoc.nodes)
                forestDoc.nodes))⟩),
          forestDoc.animations.map (fun an =>
            ⟨an.channels.map (fun ch =>
              ⟨ch.targetNode.map (BoneOrder.index_mapping
                (BoneOrder.topological_sort_nodesF (BoneOrder.defaultFuel forestDoc.nodes)
                  forestDoc.nodes))⟩)⟩)⟩) :=
  c3_amended_parent_before_child forestDoc forestRank (by decide) (by decide) (by decide)

/-! ## Specialization to the joint-order pass -/

theorem not_nodup_toFinset_card_lt (l : List ℕ) (h : ¬ l.Nodup) :
    l.toFinset.card < l.length := by
  rw [List.card_toFinset]
  have hsub := List.dedup_sublist l
  rcases lt_or_eq_of_le hsub.length_le with hlt | heq
  · exact hlt
  · exact absurd ((hsub.eq_of_length heq) ▸ l.nodup_dedup) h

theorem jointChildren_HgV (nodes : List BoneOrder.GNode) (joints : List ℕ) :
    ∀ p c, c ∈ BoneOrder.jointChildren nodes joints p →
      p ∈ joints.toFinset ∧ c ∈ joints.toFinset := by
  intro p c hc
  unfold BoneOrder.jointChildren at hc
  by_cases hp : joints.contains p = true
  · rw [if_pos hp] at hc
    refine ⟨List.mem_toFinset.mpr (List.mem_of_elem_eq_true hp), ?_⟩
    have := List.of_mem_filter hc
    exact List.mem_toFinset.mpr (List.mem_of_elem_eq_true this)
  · rw [if_neg hp] at hc
    exact absurd hc (List.not_mem_nil c)

theorem jointChildren_sub (nodes : List BoneOrder.GNode) (joints : List ℕ) (p c : ℕ)
    (hc : c ∈ BoneOrder.jointChildren nodes joints p) :
    c ∈ BoneOrder.childrenOf nodes p := by
  unfold BoneOrder.jointChildren at hc
  by_cases hp : joints.contains p = true
  · rw [if_pos hp] at hc
    exact List.mem_of_mem_filter hc
  · rw [if_neg hp] at hc
    exact absurd hc (List.not_mem_nil c)

theorem jointChildren_full (nodes : List BoneOrder.GNode) (joints : List ℕ) (p c : ℕ)
    (hp : p ∈ joints) (hcj : c ∈ joints) (hc : c ∈ BoneOrder.childrenOf nodes p) :
    c ∈ BoneOrder.jointChildren nodes joints p := by
  unfold BoneOrder.jointChildren
  rw [if_pos (List.elem_eq_true_of_mem hp)]
  exact List.mem_filter.mpr ⟨hc, List.elem_eq_true_of_mem hcj⟩

theorem root_joints_subset (nodes : List BoneOrder.GNode) (joints : List ℕ) :
    ∀ r ∈ BoneOrder.root_joints nodes joints, r ∈ joints.toFinset := by
  intro r hr
  exact List.mem_toFinset.mpr (List.mem_of_mem_filter hr)

theorem root_joints_no_parent (nodes : List BoneOrder.GNode) (joints : List ℕ) :
    ∀ r ∈ BoneOrder.root_joints nodes joints, ∀ p,
      r ∉ BoneOrder.jointChildren nodes joints p := by
  intro r hr p hmem
  have hfilter := List.of_mem_filter hr
  have hpj : p ∈ joints := List.mem_toFinset.mp (jointChildren_HgV nodes joints p r hmem).1
  have hhas : BoneOrder.joint_has_parent nodes joints r = true := by
    unfold BoneOrder.joint_has_parent
    rw [List.any_eq_true]
    exact ⟨p, hpj, List.elem_eq_true_of_mem hmem⟩
  simp [hhas] at hfilter

theorem joint_Hroot (nodes : List BoneOrder.GNode) (joints : List ℕ) :
    ∀ c ∈ joints.toFinset,
      (∃ p, c ∈ BoneOrder.jointChildren nodes joints p) ∨
        c ∈ BoneOrder.root_joints nodes joints := by
  intro c hc
  rw [List.mem_toFinset] at hc
  by_cases hpar : BoneOrder.joint_has_parent nodes joints c = true
  · left
    unfold BoneOrder.joint_has_parent at hpar
    rw [List.any_eq_true] at hpar
    obtain ⟨p, _, hcont⟩ := hpar
    exact ⟨p, List.mem_of_elem_eq_true hcont⟩
  · right
    unfold BoneOrder.root_joints
    rw [List.mem_filter]
    exact ⟨hc, by simpa using hpar⟩

theorem jointFuel_budget (joints : List ℕ) :
    joints.toFinset.card + 2 ≤ BoneOrder.jointFuel joints := by
  unfold BoneOrder.jointFuel
  have := List.toFinset_card_le joints
  omega

theorem joint_vis_nodup (nodes : List BoneOrder.GNode) (joints : List ℕ) :
    (BoneOrder.visitedJoints nodes joints).Nodup :=
  rootsFold_nodup _ _ _ [] List.nodup_nil

theorem joint_vis_subset (nodes : List BoneOrder.GNode) (joints : List ℕ) :
    ∀ x ∈ BoneOrder.visitedJoints nodes joints, x ∈ joints := by
  intro x hx
  have := rootsFold_subsetV (BoneOrder.jointChildren nodes joints) joints.toFinset
    (jointChildren_HgV nodes joints) (BoneOrder.jointFuel joints)
    (BoneOrder.root_joints nodes joints) [] (root_joints_subset nodes joints) (by simp) x hx
  exact List.mem_toFinset.mp this

theorem joint_vis_PO (nodes : List BoneOrder.GNode) (joints : List ℕ)
    (Huq : BoneOrder.uniqueParentB nodes = true) :
    ∀ c ∈ BoneOrder.visitedJoints nodes joints, ∀ p,
      c ∈ BoneOrder.jointChildren nodes joints p →
      p ∈ BoneOrder.visitedJoints nodes joints ∧
      (BoneOrder.visitedJoints nodes joints).indexOf p <
        (BoneOrder.visitedJoints nodes joints).indexOf c := by
  apply rootsFold_PO (BoneOrder.jointChildren nodes joints)
    (fun p q c hp hq => uniqueParentB_spec nodes Huq p q c
      (jointChildren_sub nodes joints p c hp) (jointChildren_sub nodes joints q c hq))
    (BoneOrder.jointFuel joints) (BoneOrder.root_joints nodes joints) []
    (root_joints_no_parent nodes joints) List.nodup_nil
  intro c hc
  exact absurd hc (List.not_mem_nil c)

theorem joint_vis_complete (nodes : List BoneOrder.GNode) (joints : List ℕ) (rank : ℕ → ℕ)
    (Hrk : BoneOrder.rankOkB nodes rank = true) :
    ∀ c ∈ joints, c ∈ BoneOrder.visitedJoints nodes joints := by
  intro c hc
  exact dfsForest_complete (BoneOrder.jointChildren nodes joints) joints.toFinset
    (jointChildren_HgV nodes joints) (BoneOrder.root_joints nodes joints)
    (root_joints_subset nodes joints) (joint_Hroot nodes joints) rank
    (fun p c' hc' => rankOkB_spec nodes rank Hrk p c' (jointChildren_sub nodes joints p c' hc'))
    (BoneOrder.jointFuel joints) (jointFuel_budget joints) c (List.mem_toFinset.mpr hc)

/-- C10 (amended): when a reorder is triggered and the root DFS reaches every
joint in the list, the joint-order pass emits each distinct joint index
exactly once; the output is strictly shorter than a duplicated input, and a
permutation of the input exactly when the input is duplicate-free. -/
theorem c10_amended_joint_dedup (nodes : List BoneOrder.GNode) (joints : List ℕ)
    (_Hre : BoneOrder.skin_needs_reorder nodes joints = true)
    (Hvis : joints.all
      (fun j => decide (j ∈ BoneOrder.visitedJoints nodes joints)) = true) :
    (BoneOrder.topological_sort_joints joints nodes).Nodup ∧
    (∀ x, x ∈ BoneOrder.topological_sort_joints joints nodes ↔ x ∈ joints) ∧
    (¬ joints.Nodup →
      (BoneOrder.topological_sort_joints joints nodes).length < joints.length) ∧
    (joints.Nodup →
      (BoneOrder.topological_sort_joints joints nodes).Perm joints) := by
  have hall : ∀ j ∈ joints, j ∈ BoneOrder.visitedJoints nodes joints := by
    intro j hj
    exact of_decide_eq_true (List.all_eq_true.mp Hvis j hj)
  have hout : BoneOrder.topological_sort_joints joints nodes =
      BoneOrder.visitedJoints nodes joints := by
    unfold BoneOrder.topological_sort_joints
    have hfil : joints.filter
        (fun j => decide (j ∉ BoneOrder.visitedJoints nodes joints)) = [] := by
      rw [List.filter_eq_nil]
      intro a ha
      simp [hall a ha]
    simp only []
    rw [hfil, List.append_nil]
  rw [hout]
  have hnd := joint_vis_nodup nodes joints
  have hsub := joint_vis_subset nodes joints
  have hmem : ∀ x, x ∈ BoneOrder.visitedJoints nodes joints ↔ x ∈ joints :=
    fun x => ⟨hsub x, hall x⟩
  refine ⟨hnd, hmem, ?_, ?_⟩
  · intro hdup
    have hlen : (BoneOrder.visitedJoints nodes joints).length =
        (BoneOrder.visitedJoints nodes joints).toFinset.card :=
      (List.toFinset_card_of_nodup hnd).symm
    have hsubF : (BoneOrder.visitedJoints nodes joints).toFinset ⊆ joints.toFinset := by
      intro x hx
      exact List.mem_toFinset.mpr (hsub x (List.mem_toFinset.mp hx))
    calc (BoneOrder.visitedJoints nodes joints).length
        = (BoneOrder.visitedJoints nodes joints).toFinset.card := hlen
      _ ≤ joints.toFinset.card := Finset.card_le_card hsubF
      _ < joints.length := not_nodup_toFinset_card_lt joints hdup
  · intro hjnd
    apply List.perm_of_nodup_nodup_toFinset_eq hnd hjnd
    ext x
    simp only [List.mem_toFinset]
    exact hmem x

theorem c10_amended_joint_dedup_witness :
    (BoneOrder.skin_needs_reorder chainNodes [1, 0, 1] = true ∧
     ([1, 0, 1] : List ℕ).all
       (fun j => decide (j ∈ BoneOrder.visitedJoints chainNodes [1, 0, 1])) = true) ∧
    ((BoneOrder.topological_sort_joints [1, 0, 1] chainNodes).Nodup ∧
     (∀ x, x ∈ BoneOrder.topological_sort_joints [1, 0, 1] chainNodes ↔
        x ∈ ([1, 0, 1] : List ℕ)) ∧
     (¬ ([1, 0, 1] : List ℕ).Nodup →
       (BoneOrder.topological_sort_joints [1, 0, 1] chainNodes).length <
         ([1, 0, 1] : List ℕ).length) ∧
     (([1, 0, 1] : List ℕ).Nodup →
       (BoneOrder.topological_sort_joints [1, 0, 1] chainNodes).Perm [1, 0, 1])) :=
  ⟨⟨by decide, by decide⟩,
   c10_amended_joint_dedup chainNodes [1, 0, 1] (by decide) (by decide)⟩

/-! ## Idempotence of the two hierarchy passes -/

theorem set_of_get? {α : Type _} : ∀ (l : List α) (n : ℕ) (v : α),
    l.get? n = some v → l.set n v = l
  | [], n, v => by simp
  | a :: l, 0, v => by
    intro h
    simp only [List.get?] at h
    injection h with h
    simp [h]
  | a :: l, n + 1, v => by
    intro h
    simp only [List.get?] at h
    simp only [List.set]
    rw [set_of_get? l n v h]

theorem fix_parent_lt (d : BoneOrder.BDoc) (rank : ℕ → ℕ)
    (Hin : BoneOrder.childrenInRange d.nodes = true)
    (Huq : BoneOrder.uniqueParentB d.nodes = true)
    (Hrk : BoneOrder.rankOkB d.nodes rank = true) :
    ∀ pi nd, (BoneOrder.fix_node_hierarchy d).nodes.get? pi = some nd →
      ∀ c ∈ nd.children, pi < c := by
  intro pi nd hget c hc
  by_cases hre : BoneOrder.needs_reorder_nodes d.nodes = true
  · have hnodes : (BoneOrder.fix_node_hierarchy d).nodes =
        (BoneOrder.topological_sort_nodesF (BoneOrder.defaultFuel d.nodes) d.nodes).map
          (fun old => BoneOrder.remapNode
            (BoneOrder.index_mapping
              (BoneOrder.topological_sort_nodesF (BoneOrder.defaultFuel d.nodes) d.nodes))
            (BoneOrder.nodeAt d.nodes old)) := by
      unfold BoneOrder.fix_node_hierarchy BoneOrder.fix_node_hierarchyF
      rw [if_pos hre]
    rw [hnodes] at hget
    rw [List.get?_map] at hget
    cases hsg : (BoneOrder.topological_sort_nodesF (BoneOrder.defaultFuel d.nodes)
        d.nodes).get? pi with
    | none => rw [hsg] at hget; exact Option.noConfusion hget
    | some old =>
      rw [hsg] at hget
      have hnd : nd = BoneOrder.remapNode
          (BoneOrder.index_mapping
            (BoneOrder.topological_sort_nodesF (BoneOrder.defaultFuel d.nodes) d.nodes))
          (BoneOrder.nodeAt d.nodes old) := by
        injection hget with hget'
        exact hget'.symm
      subst hnd
      unfold BoneOrder.remapNode at hc
      simp only [List.mem_map] at hc
      obtain ⟨c0, hc0, rfl⟩ := hc
      have hsorted_eq := node_sorted_eq_vis d.nodes rank Hin Hrk
      have holdmem : old ∈ BoneOrder.topological_sort_nodesF (BoneOrder.defaultFuel d.nodes)
          d.nodes := List.get?_mem hsg
      have holdlt : old < d.nodes.length :=
        (node_sorted_mem (BoneOrder.defaultFuel d.nodes) d.nodes Hin old).mp holdmem
      have hedge : c0 ∈ BoneOrder.childrenOf d.nodes old := by
        rw [childrenOf_eq_children d.nodes old _ (nodeAt_get? d.nodes old holdlt)]
        exact hc0
      have hc0lt : c0 < d.nodes.length := childrenInRange_spec d.nodes Hin old c0 hedge
      have hc0vis : c0 ∈ BoneOrder.visitedNodesF (BoneOrder.defaultFuel d.nodes) d.nodes :=
        node_vis_complete d.nodes rank Hin Hrk c0 hc0lt
      have hPO := node_vis_PO d.nodes Huq (BoneOrder.defaultFuel d.nodes) c0 hc0vis old hedge
      have hpi_eq : pi = (BoneOrder.topological_sort_nodesF (BoneOrder.defaultFuel d.nodes)
          d.nodes).indexOf old := by
        obtain ⟨hlt, hgetel⟩ := List.get?_eq_some.mp hsg
        have heq : (BoneOrder.topological_sort_nodesF (BoneOrder.defaultFuel d.nodes)
            d.nodes)[pi] = old := hgetel
        rw [← heq,
          List.indexOf_getElem (node_sorted_nodup (BoneOrder.defaultFuel d.nodes) d.nodes) pi hlt]
      rw [hpi_eq]
      unfold BoneOrder.index_mapping
      rw [hsorted_eq]
      exact hPO.2
  · have hre' : BoneOrder.needs_reorder_nodes d.nodes = false := by
      simpa using hre
    have hfix : BoneOrder.fix_node_hierarchy d = d := by
      unfold BoneOrder.fix_node_hierarchy BoneOrder.fix_node_hierarchyF
      rw [if_neg hre]
    rw [hfix] at hget
    have hge := needs_reorder_false_spec d.nodes hre' pi nd hget c hc
    have hedge : c ∈ BoneOrder.childrenOf d.nodes pi := by
      rw [childrenOf_eq_children d.nodes pi nd hget]
      exact hc
    have hne : rank pi < rank c := rankOkB_spec d.nodes rank Hrk pi c hedge
    by_contra hlt
    have : c = pi := by omega
    subst this
    omega

theorem needs_reorder_false_of_lt (nodes : List BoneOrder.GNode)
    (h : ∀ i nd, nodes.get? i = some nd → ∀ c ∈ nd.children, i < c) :
    BoneOrder.needs_reorder_nodes nodes = false := by
  unfold BoneOrder.needs_reorder_nodes
  rw [List.any_eq_false]
  intro p hp
  obtain ⟨i, nd⟩ := p
  have hget := List.mk_mem_enum_iff_get?.mp hp
  simp only [Bool.not_eq_true, List.any_eq_false]
  intro c hc
  have := h i nd hget c hc
  simp
  omega

theorem fix_node_hierarchy_id (d : BoneOrder.BDoc)
    (h : BoneOrder.needs_reorder_nodes d.nodes = false) :
    BoneOrder.fix_node_hierarchy d = d := by
  unfold BoneOrder.fix_node_hierarchy BoneOrder.fix_node_hierarchyF
  rw [if_neg (by simp [h])]

theorem tsort_eq_vis_of_all (nodes : List BoneOrder.GNode) (joints : List ℕ)
    (hall : ∀ j ∈ joints, j ∈ BoneOrder.visitedJoints nodes joints) :
    BoneOrder.topological_sort_joints joints nodes =
      BoneOrder.visitedJoints nodes joints := by
  unfold BoneOrder.topological_sort_joints
  have hfil : joints.filter
      (fun j => decide (j ∉ BoneOrder.visitedJoints nodes joints)) = [] := by
    rw [List.filter_eq_nil]
    intro a ha
    simp [hall a ha]
  simp only []
  rw [hfil, List.append_nil]

theorem skin_needs_reorder_vis_false (nodes : List BoneOrder.GNode) (joints : List ℕ)
    (Huq : BoneOrder.uniqueParentB nodes = true) :
    BoneOrder.skin_needs_reorder nodes (BoneOrder.visitedJoints nodes joints) = false := by
  unfold BoneOrder.skin_needs_reorder
  rw [List.any_eq_false]
  intro p hp
  obtain ⟨i, j⟩ := p
  have hget := List.mk_mem_enum_iff_get?.mp hp
  simp only [Bool.not_eq_true, List.any_eq_false]
  intro c hc
  by_cases hcv : c ∈ BoneOrder.visitedJoints nodes joints
  · have hjv : j ∈ BoneOrder.visitedJoints nodes joints := List.get?_mem hget
    have hedge : c ∈ BoneOrder.jointChildren nodes joints j :=
      jointChildren_full nodes joints j c (joint_vis_subset nodes joints j hjv)
        (joint_vis_subset nodes joints c hcv) hc
    have hPO := joint_vis_PO nodes joints Huq c hcv j hedge
    have hieq : i = (BoneOrder.visitedJoints nodes joints).indexOf j := by
      obtain ⟨hlt, hgetel⟩ := List.get?_eq_some.mp hget
      have heq : (BoneOrder.visitedJoints nodes joints)[i] = j := hgetel
      rw [← heq, List.indexOf_getElem (joint_vis_nodup nodes joints) i hlt]
    have hlt := hPO.2
    simp only [Bool.and_eq_false_iff]
    right
    rw [decide_eq_false_iff_not]
    omega
  · simp only [Bool.and_eq_false_iff]
    left
    exact Bool.eq_false_iff.mpr (fun h => hcv (List.mem_of_elem_eq_true h))

theorem processSkin_idem (nodes : List BoneOrder.GNode) (rank : ℕ → ℕ)
    (Huq : BoneOrder.uniqueParentB nodes = true)
    (Hrk : BoneOrder.rankOkB nodes rank = true) (sk : BoneOrder.BSkin) :
    BoneOrder.processSkin nodes (BoneOrder.processSkin nodes sk) =
      BoneOrder.processSkin nodes sk := by
  by_cases h1 : sk.joints.isEmpty
  · have hP : BoneOrder.processSkin nodes sk = sk := by
      unfold BoneOrder.processSkin
      rw [if_pos h1]
    rw [hP, hP]
  · by_cases h2 : BoneOrder.skin_needs_reorder nodes sk.joints = true
    · have hP : BoneOrder.processSkin nodes sk =
          { sk with joints := BoneOrder.topological_sort_joints sk.joints nodes } := by
        unfold BoneOrder.processSkin
        rw [if_neg h1, if_pos h2]
      have hall := joint_vis_complete nodes sk.joints rank Hrk
      have hts := tsort_eq_vis_of_all nodes sk.joints hall
      have hjne : sk.joints ≠ [] := by
        intro hj
        rw [hj] at h1
        exact h1 rfl
      obtain ⟨j, hj⟩ := List.exists_mem_of_ne_nil sk.joints hjne
      have hvne : BoneOrder.visitedJoints nodes sk.joints ≠ [] :=
        List.ne_nil_of_mem (hall j hj)
      have hproj : ({ sk with joints := BoneOrder.topological_sort_joints sk.joints nodes } :
          BoneOrder.BSkin).joints = BoneOrder.topological_sort_joints sk.joints nodes := rfl
      rw [hP]
      conv_lhs => rw [BoneOrder.processSkin]
      rw [hproj, hts]
      rw [if_neg (by simp [List.isEmpty_iff, hvne]),
        if_neg (by simp [skin_needs_reorder_vis_false nodes sk.joints Huq])]
    · have hP : BoneOrder.processSkin nodes sk = sk := by
        unfold BoneOrder.processSkin
        rw [if_neg h1, if_neg h2]
      rw [hP, hP]

/-- C5: on forest inputs (children in range, unique parents, acyclicity
certified by a rank function) both hierarchy passes are idempotent: a
second application of the node-order pass or of the joint-order pass
changes nothing, an already-ordered node list is returned unchanged by the
node pass, and skins whose joint lists are already ordered are left
untouched by the joint pass. -/
theorem c5_idempotent (d : BoneOrder.BDoc) (rank : ℕ → ℕ)
    (Hin : BoneOrder.childrenInRange d.nodes = true)
    (Huq : BoneOrder.uniqueParentB d.nodes = true)
    (Hrk : BoneOrder.rankOkB d.nodes rank = true) :
    BoneOrder.fix_node_hierarchy (BoneOrder.fix_node_hierarchy d) =
      BoneOrder.fix_node_hierarchy d ∧
    BoneOrder.fix_bone_order (BoneOrder.fix_bone_order d) =
      BoneOrder.fix_bone_order d ∧
    (BoneOrder.needs_reorder_nodes d.nodes = false →
      BoneOrder.fix_node_hierarchy d = d) ∧
    ((∀ sk ∈ d.skins, BoneOrder.skin_needs_reorder d.nodes sk.joints = false) →
      BoneOrder.fix_bone_order d = d) := by
  refine ⟨?_, ?_, ?_, ?_⟩
  · exact fix_node_hierarchy_id (BoneOrder.fix_node_hierarchy d)
      (needs_reorder_false_of_lt _ (fix_parent_lt d rank Hin Huq Hrk))
  · have hskins : (d.skins.map (BoneOrder.processSkin d.nodes)).map
        (BoneOrder.processSkin d.nodes) = d.skins.map (BoneOrder.processSkin d.nodes) := by
      rw [List.map_map]
      apply List.map_congr_left
      intro sk _
      exact processSkin_idem d.nodes rank Huq Hrk sk
    exact congrArg (fun s => ({ d with skins := s } : BoneOrder.BDoc)) hskins
  · exact fix_node_hierarchy_id d
  · intro hall
    have hskins : d.skins.map (BoneOrder.processSkin d.nodes) = d.skins := by
      conv_rhs => rw [← List.map_id d.skins]
      apply List.map_congr_left
      intro sk hsk
      by_cases h1 : sk.joints.isEmpty
      · unfold BoneOrder.processSkin
        rw [if_pos h1]
        rfl
      · unfold BoneOrder.processSkin
        rw [if_neg h1, if_neg (by simp [hall sk hsk])]
        rfl
    calc BoneOrder.fix_bone_order d
        = { d with skins := d.skins.map (BoneOrder.processSkin d.nodes) } := rfl
      _ = { d with skins := d.skins } :=
          congrArg (fun s => ({ d with skins := s } : BoneOrder.BDoc)) hskins
      _ = d := rfl

theorem c5_idempotent_witness :
    (BoneOrder.childrenInRange forestDoc.nodes = true ∧
     BoneOrder.uniqueParentB forestDoc.nodes = true ∧
     BoneOrder.rankOkB forestDoc.nodes forestRank = true) ∧
    (BoneOrder.fix_node_hierarchy (BoneOrder.fix_node_hierarchy forestDoc) =
       BoneOrder.fix_node_hierarchy forestDoc ∧
     BoneOrder.fix_bone_order (BoneOrder.fix_bone_order forestDoc) =
       BoneOrder.fix_bone_order forestDoc ∧
     (BoneOrder.needs_reorder_nodes forestDoc.nodes = false →
       BoneOrder.fix_node_hierarchy forestDoc = forestDoc) ∧
     ((∀ sk ∈ forestDoc.skins,
         BoneOrder.skin_needs_reorder forestDoc.nodes sk.joints = false) →
       BoneOrder.fix_bone_order forestDoc = forestDoc)) :=
  ⟨⟨by decide, by decide, by decide⟩,
   c5_idempotent forestDoc forestRank (by decide) (by decide) (by decide)⟩

/-- C6: on the cyclic node list `[{children:[2]}, {}, {children:[0]}]` the
node-order pass terminates at its default recursion budget (any extra fuel
changes nothing — the visited set cuts the cycle), records nodes 0 and 2 as
not connected to any root (the pass's only failure record), and the
repaired list violates parent-before-child only on the single image of the
cyclic edge 2→0, every other edge being correctly ordered. -/
theorem c6_cycle_graceful :
    (∀ k, BoneOrder.fix_node_hierarchyF (BoneOrder.defaultFuel c6doc.nodes + k) c6doc =
       BoneOrder.fix_node_hierarchy c6doc) ∧
    BoneOrder.unvisitedNodesF (BoneOrder.defaultFuel c6doc.nodes) c6doc.nodes = [0, 2] ∧
    BoneOrder.badEdges (BoneOrder.fix_node_hierarchy c6doc).nodes = [(2, 1)] ∧
    (BoneOrder.fix_node_hierarchy c6doc).nodes = [⟨[], 1⟩, ⟨[2], 0⟩, ⟨[1], 2⟩] := by
  refine ⟨?_, by decide, by decide, by decide⟩
  intro k
  have hvis : BoneOrder.visitedNodesF (BoneOrder.defaultFuel c6doc.nodes + k) c6doc.nodes =
      BoneOrder.visitedNodesF (BoneOrder.defaultFuel c6doc.nodes) c6doc.nodes := by
    unfold BoneOrder.visitedNodesF
    exact dfsForest_fuel_stable (BoneOrder.childrenOf c6doc.nodes)
      (Finset.range c6doc.nodes.length) (node_HgV c6doc.nodes (by decide))
      (BoneOrder.defaultFuel c6doc.nodes) (defaultFuel_budget c6doc.nodes)
      (BoneOrder.root_nodes c6doc.nodes) (root_nodes_subset c6doc.nodes) k
  unfold BoneOrder.fix_node_hierarchy
  simp only [BoneOrder.fix_node_hierarchyF, BoneOrder.topological_sort_nodesF,
    BoneOrder.unvisitedNodesF]
  rw [hvis]

/-! ## Error propagation through the Daybreak timing pass -/

theorem foldlM_ok {α β : Type _} (P : β → Prop) (f : β → α → Except String β)
    (l : List α) : ∀ (st : β), P st →
      (∀ st' a, a ∈ l → P st' → ∃ st'', f st' a = Except.ok st'' ∧ P st'') →
      ∃ stf, l.foldlM f st = Except.ok stf ∧ P stf := by
  induction l with
  | nil =>
    intro st hP _
    exact ⟨st, rfl, hP⟩
  | cons a l ih =>
    intro st hP hstep
    obtain ⟨st1, heq, hP1⟩ := hstep st a (List.mem_cons_self a l) hP
    obtain ⟨stf, heqf, hPf⟩ := ih st1 hP1
      (fun st' b hb => hstep st' b (List.mem_cons_of_mem a hb))
    refine ⟨stf, ?_, hPf⟩
    rw [List.foldlM_cons, heq]
    exact heqf

theorem samplerStep_ok (d : Daybreak.DDoc) (b : Buf)
    (Hfit : ∀ a ∈ d.accessors, ∀ bvi, a.bufferView = some bvi →
      ∀ bv, d.bufferViews[bvi]? = some bv →
        bv.byteOffset + a.byteOffset + 4 * a.count ≤ b.size)
    (ai si : ℕ) (st : Daybreak.TState) (s : Daybreak.DSampler)
    (hidx : ∀ i, s.input = some i → i < d.accessors.length)
    (hInv : Daybreak.timingInv d b st) :
    ∃ st', Daybreak.samplerStep d.bufferViews ai si st s = Except.ok st' ∧
      Daybreak.timingInv d b st' := by
  cases hs : s.input with
  | none =>
    refine ⟨st, ?_, hInv⟩
    unfold Daybreak.samplerStep
    rw [hs]
  | some idx =>
    obtain ⟨hshape, hmmInv, hbs⟩ := hInv
    have hlen : st.accessors.length = d.accessors.length := by
      have h := congrArg List.length hshape
      simpa using h
    have hidxlt : idx < st.accessors.length := by
      rw [hlen]
      exact hidx idx hs
    obtain ⟨acc, hacc⟩ : ∃ acc, st.accessors[idx]? = some acc :=
      ⟨_, List.getElem?_eq_getElem hidxlt⟩
    have haccmem : acc ∈ st.accessors := List.getElem?_mem hacc
    obtain ⟨hmn, hmx⟩ := hmmInv acc haccmem
    obtain ⟨mn, hfmn⟩ : ∃ mn, Daybreak.first0 acc.min = Except.ok mn := by
      cases hm : acc.min with
      | none => exact ⟨F.fin 0, rfl⟩
      | some l =>
        cases l with
        | nil => exact absurd hm hmn
        | cons x xs => exact ⟨x, rfl⟩
    obtain ⟨mx, hfmx⟩ : ∃ mx, Daybreak.first0 acc.max = Except.ok mx := by
      cases hm : acc.max with
      | none => exact ⟨F.fin 0, rfl⟩
      | some l =>
        cases l with
        | nil => exact absurd hm hmx
        | cons x xs => exact ⟨x, rfl⟩
    obtain ⟨a0, ha0get, ha0shape⟩ :
        ∃ a0, d.accessors[idx]? = some a0 ∧
          Daybreak.accShape a0 = Daybreak.accShape acc := by
      have h := congrArg (fun l => l[idx]?) hshape
      simp only [List.getElem?_map] at h
      rw [hacc] at h
      cases h0 : d.accessors[idx]? with
      | none =>
        rw [h0] at h
        exact Option.noConfusion h
      | some a0 =>
        rw [h0] at h
        refine ⟨a0, rfl, ?_⟩
        injection h with h'
        exact h'.symm
    have ha0mem : a0 ∈ d.accessors := List.getElem?_mem ha0get
    have hbveq : a0.bufferView = acc.bufferView := congrArg Prod.fst ha0shape
    have hboeq : a0.byteOffset = acc.byteOffset := congrArg (fun p => p.2.1) ha0shape
    have hcteq : a0.count = acc.count := congrArg (fun p => p.2.2) ha0shape
    have hsetshape : ∀ acc' : Daybreak.DAcc,
        Daybreak.accShape acc' = Daybreak.accShape acc →
        (st.accessors.set idx acc').map Daybreak.accShape =
          d.accessors.map Daybreak.accShape := by
      intro acc' hsh
      rw [List.map_set, hsh, set_of_get?]
      · exact hshape
      · rw [List.get?_eq_getElem?, List.getElem?_map, hacc]
        rfl
    have hsetmm : ∀ acc' : Daybreak.DAcc, acc'.min ≠ some [] → acc'.max ≠ some [] →
        ∀ a ∈ st.accessors.set idx acc', a.min ≠ some [] ∧ a.max ≠ some [] := by
      intro acc' h1 h2 a ha
      rcases List.mem_or_eq_of_mem_set ha with h | h
      · exact hmmInv a h
      · subst h
        exact ⟨h1, h2⟩
    by_cases hcor : timingCorrupt mn mx = true
    · cases hbv : acc.bufferView with
      | none =>
        refine ⟨st, ?_, hshape, hmmInv, hbs⟩
        simp [Daybreak.samplerStep, hs, hacc, hfmn, hfmx, hcor, hbv]
      | some bvi =>
        cases hbvv : d.bufferViews[bvi]? with
        | none =>
          refine ⟨st, ?_, hshape, hmmInv, hbs⟩
          simp [Daybreak.samplerStep, hs, hacc, hfmn, hfmx, hcor, hbv, hbvv]
        | some bv =>
          have hfit : bv.byteOffset + acc.byteOffset + 4 * acc.count ≤ b.size := by
            have h := Hfit a0 ha0mem bvi (by rw [hbveq, hbv]) bv hbvv
            rw [hboeq, hcteq] at h
            exact h
          cases hrt : Daybreak.readTimes st.buf (bv.byteOffset + acc.byteOffset) acc.count with
          | nil =>
            refine ⟨st, ?_, hshape, hmmInv, hbs⟩
            simp [Daybreak.samplerStep, hs, hacc, hfmn, hfmx, hcor, hbv, hbvv, hrt]
          | cons t ts =>
            by_cases hsc : (t :: ts).any sampleCorrupt = true
            · have hwle : bv.byteOffset + acc.byteOffset +
                  (0 + (Daybreak.synthTimes acc.count).length) * 4 ≤ st.buf.size := by
                rw [synthTimes_length, hbs]
                omega
              obtain ⟨b', hweq, hbsize, _, _⟩ := writeTimes_ok (Daybreak.synthTimes acc.count) 0
                st.buf (bv.byteOffset + acc.byteOffset) hwle
              refine ⟨⟨st.accessors.set idx ⟨acc.bufferView, acc.byteOffset, acc.componentType, acc.type, acc.count, some [(pymin (Daybreak.synthTimes acc.count)).getD (F.fin 0)], some [(pymax (Daybreak.synthTimes acc.count)).getD (F.fin 0)]⟩, b', st.fixes ++ [Daybreak.FixEntry.regenTiming ai si acc.count, Daybreak.FixEntry.fixedTiming ai si], st.fixedCount + 1⟩, ?_, ?_, ?_, ?_⟩
              · simp [Daybreak.samplerStep, hs, hacc, hfmn, hfmx, hcor, hbv, hbvv, hrt, hsc, hweq]
              · exact hsetshape _ rfl
              · exact hsetmm _ (by simp) (by simp)
              · rw [hbsize]
                exact hbs
            · refine ⟨⟨st.accessors.set idx ⟨acc.bufferView, acc.byteOffset, acc.componentType, acc.type, acc.count, some [pyminAux t ts], some [pymaxAux t ts]⟩, st.buf, st.fixes ++ [Daybreak.FixEntry.fixedTiming ai si], st.fixedCount + 1⟩, ?_, ?_, ?_, hbs⟩
              · have hsc' : (t :: ts).any sampleCorrupt = false := Bool.eq_false_iff.mpr hsc
                simp [Daybreak.samplerStep, hs, hacc, hfmn, hfmx, hcor, hbv, hbvv, hrt, hsc']
              · exact hsetshape _ rfl
              · exact hsetmm _ (by simp) (by simp)
    · have hcor' : timingCorrupt mn mx = false := Bool.eq_false_iff.mpr hcor
      refine ⟨st, ?_, hshape, hmmInv, hbs⟩
      simp [Daybreak.samplerStep, hs, hacc, hfmn, hfmx, hcor']

theorem fix_animation_timing_ok (d : Daybreak.DDoc) (b : Buf)
    (Hwf : Daybreak.wellFormedDay d b = true) :
    ∃ st, Daybreak.fix_animation_timing d b = Except.ok st ∧
      Daybreak.timingInv d b st := by
  have h3 := Hwf
  unfold Daybreak.wellFormedDay at h3
  rw [Bool.and_eq_true, Bool.and_eq_true] at h3
  obtain ⟨⟨hA, hB⟩, hC⟩ := h3
  have Hne : ∀ a ∈ d.accessors, a.min ≠ some [] ∧ a.max ≠ some [] := by
    intro a ha
    have h := List.all_eq_true.mp hB a ha
    rw [Bool.and_eq_true] at h
    exact ⟨of_decide_eq_true h.1, of_decide_eq_true h.2⟩
  have Hfit : ∀ a ∈ d.accessors, ∀ bvi, a.bufferView = some bvi →
      ∀ bv, d.bufferViews[bvi]? = some bv →
        bv.byteOffset + a.byteOffset + 4 * a.count ≤ b.size := by
    intro a ha bvi hbvi bv hbv
    have h := List.all_eq_true.mp hC a ha
    rw [hbvi] at h
    have hbv' : d.bufferViews.get? bvi = some bv := by
      rw [List.get?_eq_getElem?]
      exact hbv
    simp only [hbv'] at h
    exact of_decide_eq_true h
  have HA : ∀ an ∈ d.animations, ∀ s ∈ an.samplers, ∀ i, s.input = some i →
      i < d.accessors.length := by
    intro an han s hsm i hi
    have h1 := List.all_eq_true.mp hA an han
    have h2 := List.all_eq_true.mp h1 s hsm
    rw [hi] at h2
    exact of_decide_eq_true h2
  have hInv0 : Daybreak.timingInv d b ⟨d.accessors, b, [], 0⟩ := ⟨rfl, Hne, rfl⟩
  unfold Daybreak.fix_animation_timing
  apply foldlM_ok (Daybreak.timingInv d b) _ d.animations.enum _ hInv0
  intro st p hp hPst
  obtain ⟨ai, an⟩ := p
  have han : an ∈ d.animations := List.get?_mem (List.mk_mem_enum_iff_get?.mp hp)
  apply foldlM_ok (Daybreak.timingInv d b) _ an.samplers.enum st hPst
  intro st' q hq hPst'
  obtain ⟨si, s⟩ := q
  have hsm : s ∈ an.samplers := List.get?_mem (List.mk_mem_enum_iff_get?.mp hq)
  exact samplerStep_ok d b Hfit ai si st' s (fun i hi => HA an han s hsm i hi) hPst'

/-- C7 (counterexample): a sampler whose `input` accessor index is out of
range of the accessors array is not caught and recorded — the uncaught
IndexError aborts the whole repair pass instead of being added to the
report. -/
theorem c7_counterexample :
    Daybreak.fix_all c7bad nanBuf8 =
      Except.error "IndexError: accessors index out of range" := rfl

/-- C7 (amended): on documents whose sampler input indices are all in
range, whose accessors never carry a present-but-empty min/max list, and
whose resolvable accessor ranges fit inside the binary buffer, the repair
session never aborts: it always completes with a final report. -/
theorem c7_amended_no_abort (d : Daybreak.DDoc) (b : Buf)
    (Hwf : Daybreak.wellFormedDay d b = true) :
    ∃ r, Daybreak.fix_all d b = Except.ok r := by
  obtain ⟨st, heq, _⟩ := fix_animation_timing_ok d b Hwf
  unfold Daybreak.fix_all
  rw [heq]
  exact ⟨_, rfl⟩

theorem c7_amended_no_abort_witness :
    Daybreak.wellFormedDay c7good nanBuf8 = true ∧
    ∃ r, Daybreak.fix_all c7good nanBuf8 = Except.ok r :=
  ⟨by decide, c7_amended_no_abort c7good nanBuf8 (by decide)⟩
